import Mathlib

/-!
# SnapShop: YOLO26 detection post-processing (`app/src/main/jni/yolo.cpp`)

A shallow embedding of the post-processing pipeline of `yolo.cpp` and the
properties established for it.

Conventions of the embedding:

* C++ `float` values are IEEE 754 binary32 values, type `F32`: finite values,
  negative zero, the two infinities and NaN. Every operation computes the
  exact rational result and rounds it to the nearest representable value, ties
  to even, overflowing to an infinity; division by a zero, the sums and
  products of infinities and the NaN cases follow the standard. A finite value
  is stored as the rational it denotes (positive zero is `F32.fin 0`), so the
  float literals of the source are written as decimals (`0.45` is `0.45f`).
* Comparisons are the ones the source writes: `a < b` is `F32.lt a b` and is
  false as soon as one side is NaN; `std::min` and `std::max` are `F32.fmin` and
  `F32.fmax` with the argument order of the source.
* A conversion `(int)std::round(x)` is `F32.toInt (F32.cround x)`; it has no
  value when `x` is NaN, infinite or outside the range of `int`, where the
  source has undefined behaviour.
* The entries of the network's output tensor are finite values; an entry and
  a confidence (`prob`) are stored as rationals. Confidences are only copied
  and compared, never computed with.
* C++ `int` values are modelled by `Int` (indices that are never negative by
  `Nat`), without wrap-around; the theorems that depend on the integer range
  state it as a hypothesis.
* `std::vector<Object>` is a `List Object`; an in-place update returns the new
  list. `std::sort` is modelled by a stable insertion sort (the order of
  elements that compare equal is not fixed by the library).
* `cv::Rect_<float>` and `ncnn::Mat` are library types; only the members the
  source uses are modelled. The intersection `a & b` of two rectangles is
  OpenCV's formula: the corner is the maximum of the corners, the extent the
  minimum of the far edges minus that corner, and the empty rectangle when an
  extent is not positive.
-/

namespace SnapShop

set_option maxRecDepth 100000

/-! ## Binary32 arithmetic

The `float` values of the source are IEEE 754 binary32 values: finite values
(rationals of the form `n * 2^k`), the two zeros, the two infinities and NaN.
Every arithmetic operation returns the exact result rounded to the nearest
binary32 value, ties to even. -/

/-- A binary32 value. `fin 0` is `+0` and `nzero` is `-0`. -/
inductive F32 where
  | fin (q : ℚ)
  | nzero
  | pinf
  | ninf
  | nan
deriving DecidableEq

namespace F32

/-- The power `2 ^ e`. -/
def pow2 (e : Int) : ℚ := (2 : ℚ) ^ e

/-- Position of the leading bit of `n`, by halving at most `fuel` times. -/
def log2Fuel : Nat → Nat → Nat
  | 0, _ => 0
  | fuel + 1, n => if n < 2 then 0 else log2Fuel fuel (n / 2) + 1

/-- Position of the leading bit: `⌊log₂ n⌋` for `n ≥ 1`. -/
def nlog2 (n : Nat) : Nat := log2Fuel n n

/-- The binary exponent of `a > 0`: the `e` with `2^e ≤ a < 2^(e+1)`. -/
def ilog2 (a : ℚ) : Int :=
  let e0 : Int := (nlog2 a.num.natAbs : Int) - (nlog2 a.den : Int)
  if a < pow2 e0 then e0 - 1 else e0

/-- Nearest integer, ties to the even one. -/
def roundHalfEven (m : ℚ) : Int :=
  let f := ⌊m⌋
  let r := m - (f : ℚ)
  if r < 1 / 2 then f
  else if 1 / 2 < r then f + 1
  else if f % 2 = 0 then f else f + 1

/-- Spacing of the binary32 values around `a > 0`: 24 significant bits, and
the subnormal spacing `2^-149` below `2^-126`. -/
def ulp (a : ℚ) : ℚ := pow2 (max (ilog2 a) (-126) - 23)

/-- Round a magnitude `a ≥ 0` to nearest, ties to even, with unbounded
exponent above. -/
def rneAbs (a : ℚ) : ℚ :=
  if a = 0 then 0 else (roundHalfEven (a / ulp a) : ℚ) * ulp a

/-- Round to nearest, ties to even (sign and magnitude), with unbounded
exponent above. -/
def rne (q : ℚ) : ℚ := if q < 0 then -rneAbs (-q) else rneAbs q

/-- The binary32 value nearest to the rational `q`: overflow gives an
infinity, a negative value that rounds to zero gives `-0`. -/
def ofRat (q : ℚ) : F32 :=
  let r := rne q
  if pow2 128 ≤ r then pinf
  else if r ≤ -pow2 128 then ninf
  else if r = 0 ∧ q < 0 then nzero
  else fin r

/-- The value is a NaN. -/
def isNaN : F32 → Bool
  | nan => true
  | _ => false

/-- The value is finite (a zero included). -/
def isFinite : F32 → Bool
  | fin _ => true
  | nzero => true
  | _ => false

/-- Class of a value in the order: `-1` for `-inf`, `1` for `+inf`, else `0`. -/
def cls : F32 → Int
  | pinf => 1
  | ninf => -1
  | _ => 0

/-- Numeric value of a finite value (both zeros give `0`); `0` otherwise. -/
def num : F32 → ℚ
  | fin q => q
  | _ => 0

/-- The sign bit. -/
def signBit : F32 → Bool
  | fin q => decide (q < 0)
  | nzero => true
  | ninf => true
  | _ => false

/-- The zero of the given sign. -/
def zeroS (neg : Bool) : F32 := if neg then nzero else fin 0

/-- The infinity of the given sign. -/
def infS (neg : Bool) : F32 := if neg then ninf else pinf

/-- The comparison `a < b` of C++ on floats: false when an operand is NaN. -/
def lt (a b : F32) : Prop :=
  a.isNaN = false ∧ b.isNaN = false ∧
    (a.cls < b.cls ∨ (a.cls = b.cls ∧ a.num < b.num))

/-- The comparison `a <= b` of C++ on floats: false when an operand is NaN. -/
def le (a b : F32) : Prop :=
  a.isNaN = false ∧ b.isNaN = false ∧
    (a.cls < b.cls ∨ (a.cls = b.cls ∧ a.num ≤ b.num))

instance (a b : F32) : Decidable (lt a b) := by unfold lt; infer_instance

instance (a b : F32) : Decidable (le a b) := by unfold le; infer_instance

/-- Unary minus. -/
def neg : F32 → F32
  | fin q => if q = 0 then nzero else fin (-q)
  | nzero => fin 0
  | pinf => ninf
  | ninf => pinf
  | nan => nan

/-- The sum `a + b`. -/
def add (a b : F32) : F32 :=
  if a.isNaN || b.isNaN then nan
  else if a.cls ≠ 0 ∨ b.cls ≠ 0 then
    if a.cls + b.cls = 0 then nan
    else if 0 < a.cls + b.cls then pinf else ninf
  else if a.num + b.num = 0 then
    if a = nzero ∧ b = nzero then nzero else fin 0
  else ofRat (a.num + b.num)

/-- The difference `a - b`. -/
def sub (a b : F32) : F32 := add a (neg b)

/-- The product `a * b`. -/
def mul (a b : F32) : F32 :=
  if a.isNaN || b.isNaN then nan
  else if a.cls ≠ 0 ∨ b.cls ≠ 0 then
    if (a.cls = 0 ∧ a.num = 0) ∨ (b.cls = 0 ∧ b.num = 0) then nan
    else infS (xor a.signBit b.signBit)
  else if a.num * b.num = 0 then zeroS (xor a.signBit b.signBit)
  else ofRat (a.num * b.num)

/-- The quotient `a / b`. -/
def div (a b : F32) : F32 :=
  if a.isNaN || b.isNaN then nan
  else if a.cls ≠ 0 then
    if b.cls ≠ 0 then nan else infS (xor a.signBit b.signBit)
  else if b.cls ≠ 0 then zeroS (xor a.signBit b.signBit)
  else if b.num = 0 then
    if a.num = 0 then nan else infS (xor a.signBit b.signBit)
  else if a.num = 0 then zeroS (xor a.signBit b.signBit)
  else ofRat (a.num / b.num)

/-- The conversion `(float)n` of an `int`. -/
def ofInt (n : Int) : F32 := ofRat (n : ℚ)

/-- The library `std::round` on floats: nearest integer, halfway cases away
from zero, keeping the sign of a zero result. -/
def cround : F32 → F32
  | fin q =>
    if 0 ≤ q then fin (⌊q + 1 / 2⌋ : Int)
    else if -⌊-q + 1 / 2⌋ = 0 then nzero else fin (-⌊-q + 1 / 2⌋ : Int)
  | x => x

/-- The conversion `(int)x`: truncation toward zero; no value when `x` is a
NaN, an infinity or outside the range of `int` (undefined in C++). -/
def toInt : F32 → Option Int
  | fin q =>
    let t := Int.tdiv q.num (q.den : Int)
    if -2147483648 ≤ t ∧ t ≤ 2147483647 then some t else none
  | nzero => some 0
  | _ => none

/-- The library `std::min(a, b)`: `(b < a) ? b : a`. -/
def fmin (a b : F32) : F32 := if lt b a then b else a

/-- The library `std::max(a, b)`: `(a < b) ? b : a`. -/
def fmax (a b : F32) : F32 := if lt a b then b else a

end F32

instance : OfScientific F32 := ⟨fun m s e => F32.ofRat (OfScientific.ofScientific m s e)⟩

instance (n : Nat) : OfNat F32 n := ⟨F32.ofRat (n : ℚ)⟩

instance : Neg F32 := ⟨F32.neg⟩

/-- The rational denoted by the float literal written as the decimal `q`
(`F32.lit 0.9` is the value of `0.9f`). -/
def F32.lit (q : ℚ) : ℚ := (F32.ofRat q).num

/-- The value is a finite binary32 value: a zero, or a rational that the
rounding leaves unchanged and that lies inside the binary32 range. -/
def F32.IsFiniteValue (a : F32) : Prop :=
  a.isFinite = true ∧ F32.rne a.num = a.num ∧ -F32.pow2 128 < a.num ∧ a.num < F32.pow2 128

instance (a : F32) : Decidable a.IsFiniteValue := by
  unfold F32.IsFiniteValue; infer_instance

/-! ## Data model -/

/-- The `cv::Rect_<float>` fields: top-left corner, width and height. -/
structure Rect where
  x : F32
  y : F32
  width : F32
  height : F32
deriving DecidableEq

/-- The `struct Object` of `yolo.h`. The confidence `prob` only takes part in
comparisons and is a finite value. -/
structure Object where
  rect : Rect
  label : Int
  prob : ℚ
deriving DecidableEq

instance : Inhabited Rect := ⟨⟨F32.fin 0, F32.fin 0, F32.fin 0, F32.fin 0⟩⟩

instance : Inhabited Object := ⟨⟨default, 0, 0⟩⟩

/-- The `cv::Rect_::area()` member: `width * height`. -/
def Rect.area (r : Rect) : F32 := F32.mul r.width r.height

/-- The `cv::Rect_` intersection `a & b` of OpenCV: the overlap of the two
rectangles, and the all-zero rectangle when the overlap has no positive
width or height. -/
def Rect.inter (a b : Rect) : Rect :=
  let x1 := F32.fmax a.x b.x
  let y1 := F32.fmax a.y b.y
  let w := F32.sub (F32.fmin (F32.add a.x a.width) (F32.add b.x b.width)) x1
  let h := F32.sub (F32.fmin (F32.add a.y a.height) (F32.add b.y b.height)) y1
  if F32.le w (F32.fin 0) ∨ F32.le h (F32.fin 0) then
    ⟨F32.fin 0, F32.fin 0, F32.fin 0, F32.fin 0⟩
  else ⟨x1, y1, w, h⟩

/-- Element access `objects[i]` on a vector. -/
def objAt (objects : List Object) (i : Nat) : Object := objects.getD i default

/-! ## Suppression filter (`yolo.cpp` lines 23-27 and 58-92) -/

/-- Source `intersection_area`: area of `a.rect & b.rect`. -/
def intersection_area (a b : Object) : F32 := (Rect.inter a.rect b.rect).area

/-- The inner loop of `nms_sorted_bboxes` (lines 72-88) for candidate `i`,
running over the remaining entries of `picked`; the result is the `keep`
flag. -/
def nms_keep (objects : List Object) (areas : List F32) (nms_threshold : F32)
    (agnostic : Bool) (i : Nat) : List Nat → Bool
  | [] => true
  | pj :: rest =>
    let a := objAt objects i
    let b := objAt objects pj
    if !agnostic && a.label != b.label then
      nms_keep objects areas nms_threshold agnostic i rest
    else
      let inter_area := intersection_area a b
      let union_area :=
        F32.sub (F32.add (areas.getD i (F32.fin 0)) (areas.getD pj (F32.fin 0))) inter_area
      let iou :=
        if F32.lt (F32.fin 0) union_area then F32.div inter_area union_area else F32.fin 0
      if F32.lt nms_threshold iou then false
      else nms_keep objects areas nms_threshold agnostic i rest

/-- One iteration of the outer loop (lines 67-91): `picked.push_back(i)` when
the inner loop left `keep` set. -/
def nms_step (objects : List Object) (areas : List F32) (nms_threshold : F32)
    (agnostic : Bool) (picked : List Nat) (i : Nat) : List Nat :=
  if nms_keep objects areas nms_threshold agnostic i picked then picked ++ [i]
  else picked

/-- The outer loop of `nms_sorted_bboxes` run for `i = 0, ..., m - 1`. -/
def nms_upto (objects : List Object) (nms_threshold : F32) (agnostic : Bool)
    (m : Nat) : List Nat :=
  (List.range m).foldl
    (nms_step objects (objects.map fun o => o.rect.area) nms_threshold agnostic) []

/-- Source `nms_sorted_bboxes`: the vector `picked` it leaves. -/
def nms_sorted_bboxes (objects : List Object) (nms_threshold : F32)
    (agnostic : Bool) : List Nat :=
  nms_upto objects nms_threshold agnostic objects.length

/-- The detections selected by `picked`, in the order of `picked`
(`proposals[picked[i]]`, line 377). -/
def nms_kept (objects : List Object) (nms_threshold : F32) (agnostic : Bool) :
    List Object :=
  (nms_sorted_bboxes objects nms_threshold agnostic).map (objAt objects)

/-- Overlap of two boxes along one axis, in single precision: the smaller of
the two far edges minus the larger of the two near edges. -/
def overlapLength (lo1 len1 lo2 len2 : F32) : F32 :=
  F32.sub (F32.fmin (F32.add lo1 len1) (F32.add lo2 len2)) (F32.fmax lo1 lo2)

/-- Overlapping area of two boxes, in single precision: the product of the
overlaps along the two axes, and zero when one of them is not positive. -/
def overlapArea (a b : Rect) : F32 :=
  if F32.le (overlapLength a.x a.width b.x b.width) (F32.fin 0) ∨
      F32.le (overlapLength a.y a.height b.y b.height) (F32.fin 0) then F32.fin 0
  else F32.mul (overlapLength a.x a.width b.x b.width)
    (overlapLength a.y a.height b.y b.height)

/-- Intersection over union of two boxes, in single precision:
`interArea / (areaA + areaB - interArea)`, and zero when the union area is not
positive. -/
def IoU (a b : Object) : F32 :=
  let inter := overlapArea a.rect b.rect
  let union := F32.sub
    (F32.add (F32.mul a.rect.width a.rect.height) (F32.mul b.rect.width b.rect.height))
    inter
  if F32.lt (F32.fin 0) union then F32.div inter union else F32.fin 0

/-- Two detections take part in suppression of one another: always in
agnostic mode, otherwise only with equal labels (line 76). -/
def Comparable (agnostic : Bool) (a b : Object) : Prop :=
  agnostic = true ∨ a.label = b.label

instance (agnostic : Bool) (a b : Object) : Decidable (Comparable agnostic a b) := by
  unfold Comparable; infer_instance

/-- Candidate `a` is suppressed by the accepted detection `b`: the two are
comparable and their IoU is above the threshold. -/
def Suppresses (nms_threshold : F32) (agnostic : Bool) (a b : Object) : Prop :=
  Comparable agnostic a b ∧ F32.lt nms_threshold (IoU a b)

instance (nms_threshold : F32) (agnostic : Bool) (a b : Object) :
    Decidable (Suppresses nms_threshold agnostic a b) := by
  unfold Suppresses; infer_instance

/-! ## Proposal decoder (`yolo.cpp` lines 94-164) -/

/-- The members of `ncnn::Mat` the decoder reads: `dims`, `w`, `h` and the
float buffer; for a 2-D matrix row `y` starts at offset `w * y`. The entries
are finite values. -/
structure Mat where
  dims : Int
  w : Int
  h : Int
  data : List ℚ

/-- The element `pred.row(y)[i]`. -/
def Mat.row (pred : Mat) (y i : Nat) : ℚ := pred.data.getD (y * pred.w.toNat + i) 0

/-- One iteration of the class loop (lines 131-140) on the state
`(label, score)`. -/
def class_scan_step (pred : Mat) (i : Nat) (st : Int × ℚ) (k : Nat) : Int × ℚ :=
  let s := pred.row (4 + k) i
  if s > st.2 then ((k : Int), s) else st

/-- The class loop of column `i` (lines 128-140), started from `label = -1`,
`score = 0.f`. -/
def class_scan (pred : Mat) (num_class : Nat) (i : Nat) : Int × ℚ :=
  (List.range num_class).foldl (class_scan_step pred i) (-1, 0)

/-- Lines 143-160 for column `i`: nothing when `score < prob_threshold`, else
the object that is pushed; `x0` and `y0` are computed in single precision. -/
def proposal_at (pred : Mat) (prob_threshold : ℚ) (num_class : Nat) (i : Nat) :
    Option Object :=
  let st := class_scan pred num_class i
  if st.2 < prob_threshold then none
  else
    let cx := F32.fin (pred.row 0 i)
    let cy := F32.fin (pred.row 1 i)
    let bw := F32.fin (pred.row 2 i)
    let bh := F32.fin (pred.row 3 i)
    let x0 := F32.sub cx (F32.mul bw (F32.fin (1 / 2)))
    let y0 := F32.sub cy (F32.mul bh (F32.fin (1 / 2)))
    some ⟨⟨x0, y0, bw, bh⟩, st.1, st.2⟩

/-- One iteration of the proposal loop (lines 126-161) on the state
`(objects, global_max)`. -/
def proposals_step (pred : Mat) (prob_threshold : ℚ) (num_class : Nat)
    (st : List Object × ℚ) (i : Nat) : List Object × ℚ :=
  let score := (class_scan pred num_class i).2
  let global_max := if score > st.2 then score else st.2
  match proposal_at pred prob_threshold num_class i with
  | none => (st.1, global_max)
  | some obj => (st.1 ++ [obj], global_max)

/-- Source `generate_proposals_yolo26` with both outputs: the vector `objects`
and the value stored through `out_global_max`. -/
def generate_proposals_full (pred : Mat) (prob_threshold : ℚ) : List Object × ℚ :=
  if pred.dims ≠ 2 then ([], 0)
  else
    let num_proposals := pred.w
    let num_feat := pred.h
    let num_class := num_feat - 4
    if num_feat ≠ 84 then ([], 0)
    else
      (List.range num_proposals.toNat).foldl
        (proposals_step pred prob_threshold num_class.toNat) ([], 0)

/-- Source `generate_proposals_yolo26`: the vector `objects` it leaves. -/
def generate_proposals_yolo26 (pred : Mat) (prob_threshold : ℚ) : List Object :=
  (generate_proposals_full pred prob_threshold).1

/-- The value `m` is the maximum class score of column `i` (80 class rows). -/
def IsColMax (pred : Mat) (i : Nat) (m : ℚ) : Prop :=
  (∃ k, k < 80 ∧ pred.row (4 + k) i = m) ∧ ∀ k, k < 80 → pred.row (4 + k) i ≤ m

/-- The label `l` is the lowest class index attaining the maximum class score
of column `i`. -/
def IsFirstArgmax (pred : Mat) (i : Nat) (l : Int) : Prop :=
  ∃ c : Nat, c < 80 ∧ l = (c : Int) ∧
    (∀ k, k < 80 → pred.row (4 + k) i ≤ pred.row (4 + c) i) ∧
    (∀ k, k < c → pred.row (4 + k) i < pred.row (4 + c) i)

/-- Column `i` has a class score of at least `t`, that is, its maximum class
score is at least `t`. -/
def ColPasses (pred : Mat) (t : ℚ) (i : Nat) : Prop :=
  ∃ k, k < 80 ∧ t ≤ pred.row (4 + k) i

instance (pred : Mat) (t : ℚ) (i : Nat) : Decidable (ColPasses pred t i) := by
  unfold ColPasses; infer_instance

/-- The box `(cx - w/2, cy - h/2, w, h)` of column `i` in single precision:
the half width `w * 0.5` and the difference are each rounded to binary32. -/
def decodedBox (pred : Mat) (i : Nat) : Rect :=
  ⟨F32.sub (F32.fin (pred.row 0 i)) (F32.mul (F32.fin (pred.row 2 i)) (F32.fin (1 / 2))),
    F32.sub (F32.fin (pred.row 1 i)) (F32.mul (F32.fin (pred.row 3 i)) (F32.fin (1 / 2))),
    F32.fin (pred.row 2 i), F32.fin (pred.row 3 i)⟩

/-- The decoding contract: `out` lists, in increasing column order, one
detection for each column whose maximum class score is at least `t`, with the
box `(cx - w/2, cy - h/2, w, h)` of rows 0..3, the maximum class score as
confidence and the lowest class index attaining it as label. -/
def DecodeSpec (pred : Mat) (t : ℚ) (out : List Object) : Prop :=
  List.Forall₂
    (fun i d =>
      d.rect = decodedBox pred i ∧
      IsColMax pred i d.prob ∧ IsFirstArgmax pred i d.label)
    ((List.range pred.w.toNat).filter fun i => decide (ColPasses pred t i))
    out

/-- A well-shaped tensor with one column whose 84 entries are all zero. -/
def zeroPred : Mat := ⟨2, 1, 84, List.replicate 84 0⟩


/-! ## Letterbox parameters and coordinate mapping (`Yolo::detect`) -/

/-- The letterbox values computed by lines 299-306 and the border widths
passed to `copy_make_border` at lines 329-330. -/
structure Letterbox where
  scale : F32
  new_w : Int
  new_h : Int
  wpad : Int
  hpad : Int
  pad_left : Int
  pad_top : Int
  pad_right : Int
  pad_bottom : Int
deriving DecidableEq

/-- Line 299 of `Yolo::detect`:
`std::min(dst_size / (float)img_w, dst_size / (float)img_h)`. -/
def letterbox_scale (img_w img_h dst_size : Int) : F32 :=
  F32.fmin (F32.div (F32.ofInt dst_size) (F32.ofInt img_w))
    (F32.div (F32.ofInt dst_size) (F32.ofInt img_h))

/-- Lines 299-306 and 329-330 of `Yolo::detect` for an `img_w` x `img_h`
image and target size `dst_size`. The quotients, the products and
`std::round` are single-precision operations; there is no value when a
conversion `(int)std::round(...)` is undefined; integer division truncates as
in C++. -/
def letterbox (img_w img_h dst_size : Int) : Option Letterbox :=
  let scale := letterbox_scale img_w img_h dst_size
  match F32.toInt (F32.cround (F32.mul (F32.ofInt img_w) scale)),
      F32.toInt (F32.cround (F32.mul (F32.ofInt img_h) scale)) with
  | some new_w, some new_h =>
    let wpad := dst_size - new_w
    let hpad := dst_size - new_h
    let pad_left := Int.tdiv wpad 2
    let pad_top := Int.tdiv hpad 2
    some ⟨scale, new_w, new_h, wpad, hpad, pad_left, pad_top, wpad - pad_left,
      hpad - pad_top⟩
  | _, _ => none

/-- Lines 385-388: `std::max(std::min(v, (float)(limit)), 0.f)`. -/
def clamp (v : F32) (limit : Int) : F32 :=
  F32.fmax (F32.fmin v (F32.ofInt limit)) (F32.fin 0)

/-- Lines 380-393 of `Yolo::detect`: map one rectangle from the padded model
input back to the original image and clamp both corners, all in single
precision. -/
def map_rect (img_w img_h : Int) (scale : F32) (pad_left pad_top : Int) (r : Rect) :
    Rect :=
  let x0 := F32.div (F32.sub r.x (F32.ofInt pad_left)) scale
  let y0 := F32.div (F32.sub r.y (F32.ofInt pad_top)) scale
  let x1 := F32.div (F32.sub (F32.add r.x r.width) (F32.ofInt pad_left)) scale
  let y1 := F32.div (F32.sub (F32.add r.y r.height) (F32.ofInt pad_top)) scale
  let x0 := clamp x0 (img_w - 1)
  let y0 := clamp y0 (img_h - 1)
  let x1 := clamp x1 (img_w - 1)
  let y1 := clamp y1 (img_h - 1)
  ⟨x0, y0, F32.sub x1 x0, F32.sub y1 y0⟩

/-- The clamped right edge `x1` of lines 382 and 387. -/
def mapped_right (img_w : Int) (scale : F32) (pad_left : Int) (r : Rect) : F32 :=
  clamp (F32.div (F32.sub (F32.add r.x r.width) (F32.ofInt pad_left)) scale) (img_w - 1)

/-- The clamped bottom edge `y1` of lines 383 and 388. -/
def mapped_bottom (img_h : Int) (scale : F32) (pad_top : Int) (r : Rect) : F32 :=
  clamp (F32.div (F32.sub (F32.add r.y r.height) (F32.ofInt pad_top)) scale) (img_h - 1)

/-- The coordinate-mapping step of `Yolo::detect` for one kept box, with the
letterbox parameters of the same call. -/
def map_box (img_w img_h dst_size : Int) (r : Rect) : Option Rect :=
  (letterbox img_w img_h dst_size).map fun lb =>
    map_rect img_w img_h lb.scale lb.pad_left lb.pad_top r


/-! ## Score sorter (`yolo.cpp` lines 29-56) -/

/-- The read `objects[k].prob` inside a call `qsort_descent_inplace(objects,
left, right)`. The read is monitored: it yields no value when `k` lies outside
`[left, right]` or outside the vector. -/
def prob_at (objects : List Object) (left right k : Int) : Option ℚ :=
  if 0 ≤ k ∧ left ≤ k ∧ k ≤ right then (objects[k.toNat]?).map fun o => o.prob
  else none

/-- The loop `while (objects[i].prob > p) i++;` (line 37); `none` when the
fuel runs out or a read is refused. -/
def scan_up (objects : List Object) (left right : Int) (p : ℚ) : Nat → Int → Option Int
  | 0, _ => none
  | fuel + 1, i =>
    match prob_at objects left right i with
    | none => none
    | some v => if v > p then scan_up objects left right p fuel (i + 1) else some i

/-- The loop `while (objects[j].prob < p) j--;` (line 38). -/
def scan_down (objects : List Object) (left right : Int) (p : ℚ) : Nat → Int → Option Int
  | 0, _ => none
  | fuel + 1, j =>
    match prob_at objects left right j with
    | none => none
    | some v => if v < p then scan_down objects left right p fuel (j - 1) else some j

/-- The `std::swap(objects[i], objects[j])` of line 42, monitored like
`prob_at`. -/
def swap_at (objects : List Object) (left right i j : Int) : Option (List Object) :=
  if 0 ≤ i ∧ left ≤ i ∧ i ≤ right ∧ 0 ≤ j ∧ left ≤ j ∧ j ≤ right then
    match objects[i.toNat]?, objects[j.toNat]? with
    | some a, some b => some ((objects.set i.toNat b).set j.toNat a)
    | _, _ => none
  else none

/-- The loop `while (i <= j) { ... }` of lines 35-46 on the state
`(objects, i, j)`; `sf` is the fuel handed to the two inner loops. -/
def partition_loop (left right : Int) (p : ℚ) (sf : Nat) :
    Nat → List Object → Int → Int → Option (List Object × Int × Int)
  | 0, _, _, _ => none
  | fuel + 1, objects, i, j =>
    if i ≤ j then
      match scan_up objects left right p sf i with
      | none => none
      | some i1 =>
        match scan_down objects left right p sf j with
        | none => none
        | some j1 =>
          if i1 ≤ j1 then
            match swap_at objects left right i1 j1 with
            | none => none
            | some objects1 => partition_loop left right p sf fuel objects1 (i1 + 1) (j1 - 1)
          else partition_loop left right p sf fuel objects i1 j1
    else some (objects, i, j)

/-- Source `qsort_descent_inplace(objects, left, right)` (lines 29-50), with
fuel bounding the recursion depth and the loops. -/
def qsort_rec : Nat → List Object → Int → Int → Option (List Object)
  | 0, _, _, _ => none
  | fuel + 1, objects, left, right =>
    match prob_at objects left right (Int.tdiv (left + right) 2) with
    | none => none
    | some p =>
      match partition_loop left right p (fuel + 1) (fuel + 1) objects left right with
      | none => none
      | some (objects1, i, j) =>
        match (if left < j then qsort_rec fuel objects1 left j else some objects1) with
        | none => none
        | some objects2 =>
          if i < right then qsort_rec fuel objects2 i right else some objects2

/-- Source `qsort_descent_inplace(objects)` (lines 52-56). The result is
`none` exactly when the run reads or swaps outside the `[left, right]` window
of the active call, or does not finish within the fuel `objects.length + 1`. -/
def qsort_descent_inplace (objects : List Object) : Option (List Object) :=
  if objects.isEmpty then some objects
  else qsort_rec (objects.length + 1) objects 0 ((objects.length : Int) - 1)

/-- The element `objects[k]` for an `int` index. -/
def oa (objects : List Object) (k : Int) : Object := objAt objects k.toNat

/-- The value `objects[k].prob` for an `int` index. -/
def pr (objects : List Object) (k : Int) : ℚ := (oa objects k).prob

/-- The list `ys` is `xs` rearranged inside the index window `[left, right]`:
same length, a permutation, equal outside the window, and every element of
the window of `ys` is an element of the window of `xs`. -/
def SegPerm (left right : Int) (xs ys : List Object) : Prop :=
  ys.length = xs.length ∧ ys.Perm xs ∧
  (∀ m : Int, 0 ≤ m → (m < left ∨ right < m) → oa ys m = oa xs m) ∧
  (∀ m : Int, left ≤ m → m ≤ right →
    ∃ m' : Int, left ≤ m' ∧ m' ≤ right ∧ oa ys m = oa xs m')

/-- The window `[left, right]` of `xs` is in non-increasing order of `prob`. -/
def SortedSeg (xs : List Object) (left right : Int) : Prop :=
  ∀ a b : Int, left ≤ a → a ≤ b → b ≤ right → pr xs b ≤ pr xs a

/-- Invariant of the partition loop at the loop test. -/
def PartInv (left right : Int) (p : ℚ) (xs : List Object) (i j : Int) : Prop :=
  left ≤ i ∧ j ≤ right ∧ i ≤ right + 1 ∧ left - 1 ≤ j ∧
  (∀ m : Int, left ≤ m → m < i → p ≤ pr xs m) ∧
  (∀ m : Int, j < m → m ≤ right → pr xs m ≤ p) ∧
  (i ≤ j → ∃ ku kd : Int, i ≤ ku ∧ ku ≤ right ∧ pr xs ku ≤ p ∧
      left ≤ kd ∧ kd ≤ j ∧ p ≤ pr xs kd ∧ ((left < i ∧ j < right) ∨ ku ≤ kd)) ∧
  (j < i → left < i ∧ j < right)


/-! ## The post-processing pipeline of `Yolo::detect` (lines 351-407) -/

/-- Lines 351-377 of `Yolo::detect`: decode, return early on no proposal, sort
by confidence, run the suppression filter (every index is picked when
`nms_threshold` is not positive) and select `proposals[picked[i]]`. -/
def detect_kept (pred : Mat) (prob_threshold : ℚ) (nms_threshold : F32) :
    Option (List Object) :=
  let proposals := generate_proposals_yolo26 pred prob_threshold
  if proposals.isEmpty then some []
  else
    match qsort_descent_inplace proposals with
    | none => none
    | some proposals =>
      let picked :=
        if F32.lt (F32.fin 0) nms_threshold then
          nms_sorted_bboxes proposals nms_threshold false
        else List.range proposals.length
      some (picked.map (objAt proposals))

/-- Insertion of `o` into a list in descending order of area: `o` goes behind
every leading box whose area is greater than its own. -/
def area_insert (o : Object) : List Object → List Object
  | [] => [o]
  | b :: rest =>
    if F32.lt o.rect.area b.rect.area then b :: area_insert o rest else o :: b :: rest

/-- The closing `std::sort` with the comparator `a.rect.area() > b.rect.area()`
(lines 396-405). Boxes that the comparator does not order keep their earlier
order; `std::sort` leaves that order open. -/
def sort_by_area : List Object → List Object
  | [] => []
  | a :: rest => area_insert a (sort_by_area rest)

/-- Lines 375-394 of `Yolo::detect`: the kept detections with their boxes
mapped back to the original image, in the order of `picked`. -/
def detect_mapped (pred : Mat) (img_w img_h : Int) (lb : Letterbox)
    (prob_threshold : ℚ) (nms_threshold : F32) : Option (List Object) :=
  (detect_kept pred prob_threshold nms_threshold).map fun kept =>
    kept.map fun o => ⟨map_rect img_w img_h lb.scale lb.pad_left lb.pad_top o.rect,
      o.label, o.prob⟩

/-- Lines 351-407 of `Yolo::detect`: the vector `objects` that is returned. -/
def detect_post (pred : Mat) (img_w img_h : Int) (lb : Letterbox)
    (prob_threshold : ℚ) (nms_threshold : F32) : Option (List Object) :=
  (detect_mapped pred img_w img_h lb prob_threshold nms_threshold).map sort_by_area

/-! ## Entry of `Yolo::detect` (lines 166-183 and 288-349) -/

/-- The members of the `cv::Mat` input that `Yolo::detect` reads before the
pixel data: `cols`, `rows` and `type()`. -/
structure CvMat where
  cols : Int
  rows : Int
  type : Int

/-- The library constants named by `pick_pixel_type_for_ncnn`: the OpenCV
type codes and the ncnn pixel conversions. Their values come from the library
headers and are a parameter here. -/
structure PixelConstants where
  CV_8UC1 : Int
  CV_8UC3 : Int
  CV_8UC4 : Int
  PIXEL_BGR2RGB : Int
  PIXEL_RGBA2RGB : Int

/-- What the code relies on: the three type codes that are tested differ and
the conversion codes are not negative. -/
def PixelConstants.Valid (c : PixelConstants) : Prop :=
  c.CV_8UC1 ≠ c.CV_8UC3 ∧ c.CV_8UC1 ≠ c.CV_8UC4 ∧
    0 ≤ c.PIXEL_BGR2RGB ∧ 0 ≤ c.PIXEL_RGBA2RGB

instance (c : PixelConstants) : Decidable c.Valid := by
  unfold PixelConstants.Valid; infer_instance

/-- The values of the OpenCV and ncnn headers: `CV_8UC1 = 0`, `CV_8UC3 = 16`,
`CV_8UC4 = 24`, `PIXEL_BGR2RGB = 2 | (1 << 16)`, `PIXEL_RGBA2RGB = 4 | (1 << 16)`. -/
def libConstants : PixelConstants := ⟨0, 16, 24, 65538, 65540⟩

/-- Source `pick_pixel_type_for_ncnn` (lines 167-183). -/
def pick_pixel_type_for_ncnn (c : PixelConstants) (img : CvMat) : Int :=
  let type := img.type
  if type = c.CV_8UC3 then c.PIXEL_BGR2RGB
  else if type = c.CV_8UC4 then c.PIXEL_RGBA2RGB
  else if type = c.CV_8UC1 then -1
  else c.PIXEL_BGR2RGB

/-- How a call of `Yolo::detect` ends. `undefined`: a conversion
`(int)std::round(...)` of lines 300-301 has no defined value. `rejected`: the
`return -1` of line 312, taken before `from_pixels_resize` and before the
extractor is created. `ran`: the arguments handed to `from_pixels_resize`
(pixel type, image size, resized size), after which the network is run,
together with the status returned and the detections. -/
inductive DetectRun where
  | undefined
  | rejected (status : Int) (objects : List Object)
  | ran (pixel_type img_w img_h new_w new_h : Int) (status : Int)
      (objects : Option (List Object))
deriving DecidableEq

/-- Source `Yolo::detect` (lines 288-408). The resize, border, normalisation
and network run of lines 319-346 belong to the inference engine and are the
parameter `infer`, which yields the tensor `out`; `target_size` is the member
set by `load`. -/
def detect (c : PixelConstants)
    (infer : Int → Int → Int → Int → Int → Letterbox → Mat)
    (target_size : Int) (input : CvMat) (prob_threshold : ℚ) (nms_threshold : F32) :
    DetectRun :=
  let img_w := input.cols
  let img_h := input.rows
  let dst_size := target_size
  match letterbox img_w img_h dst_size with
  | none => DetectRun.undefined
  | some lb =>
    let pixel_type := pick_pixel_type_for_ncnn c input
    if pixel_type < 0 then DetectRun.rejected (-1) []
    else
      let out := infer pixel_type img_w img_h lb.new_w lb.new_h lb
      DetectRun.ran pixel_type img_w img_h lb.new_w lb.new_h 0
        (detect_post out img_w img_h lb prob_threshold nms_threshold)

/-! ## Concrete tensors and boxes -/

/-- The scenario tensor with `numProposals = 2`, `numClasses = 2` (six feature
rows): proposal 0 decodes to the box `(0, 0, 10, 10)` with class 0 score 0.9,
proposal 1 to the box `(1, 1, 10, 10)` with class 0 score 0.8; the scores are
the float literals `0.9f` and `0.8f`. -/
def scenarioPred6 : Mat :=
  ⟨2, 2, 6, [5, 6, 5, 6, 10, 10, 10, 10, F32.lit 0.9, F32.lit 0.8, 0, 0]⟩

/-- The same two proposals in a tensor of the shape the decoder accepts: 84
feature rows, that is 80 class rows, all other class scores zero. -/
def scenarioPred84 : Mat :=
  ⟨2, 2, 84, [5, 6, 5, 6, 10, 10, 10, 10, F32.lit 0.9, F32.lit 0.8] ++ List.replicate 158 0⟩

/-- A well-shaped one-column tensor whose width row is negative: centre
`(20, 20)`, width `-10`, height `10`, class 0 score 0.9. -/
def negWidthPred : Mat :=
  ⟨2, 1, 84, [20, 20, -10, 10, F32.lit 0.9] ++ List.replicate 79 0⟩

/-- A well-shaped one-column tensor with centre `(350.1f, 320)`, width `700`,
height `100` and class 0 score 0.9; `350.1f` is the binary32 value
`11472077 / 32768`. -/
def wideBoxPred : Mat :=
  ⟨2, 1, 84, [F32.lit 350.1, 320, 700, 100, F32.lit 0.9] ++ List.replicate 79 0⟩

/-- A well-shaped two-column tensor with two boxes that do not overlap: a
`10 x 10` box centred at `(100, 100)` with class 0 score 0.9 and a `50 x 50`
box centred at `(300, 300)` with class 0 score 0.8. -/
def twoBoxPred : Mat :=
  ⟨2, 2, 84, [100, 300, 100, 300, 10, 50, 10, 50, F32.lit 0.9, F32.lit 0.8] ++
    List.replicate 158 0⟩

/-- The letterbox parameters of a `640 x 640` image at target size 640. -/
def lbSquare : Letterbox := ⟨F32.fin 1, 640, 640, 0, 0, 0, 0, 0, 0⟩

/-- The detection decoded from proposal 0 of the scenario tensors. -/
def boxA : Object := ⟨⟨0, 0, 10, 10⟩, 0, F32.lit 0.9⟩

/-- The detection decoded from proposal 1 of the scenario tensors. -/
def boxB : Object := ⟨⟨1, 1, 10, 10⟩, 0, F32.lit 0.8⟩

/-- The box of `boxB` carrying class label 1. -/
def boxC : Object := ⟨⟨1, 1, 10, 10⟩, 1, F32.lit 0.8⟩

/-- A `20 x 1` box at the origin, label 0. -/
def stripA : Object := ⟨⟨0, 0, 20, 1⟩, 0, F32.lit 0.9⟩

/-- A `9 x 1` box at the origin, label 0: it lies inside `stripA` and covers
`9/20` of it. -/
def stripB : Object := ⟨⟨0, 0, 9, 1⟩, 0, F32.lit 0.8⟩

/-- The letterbox parameters of a `1280 x 720` image at target size 640. -/
def lbWide : Letterbox := ⟨F32.fin (1 / 2), 640, 360, 0, 280, 0, 140, 0, 140⟩

/-- The letterbox parameters of a `0 x 480` image at target size 640: the
scale is the single-precision quotient `640 / 480`. -/
def lbZeroWidth : Letterbox := ⟨F32.ofRat (4 / 3), 0, 640, 640, 0, 320, 0, 320, 0⟩

/-- A `50 x 60` box at `(100, 200)`. -/
def rectSmall : Rect := ⟨F32.fin 100, F32.fin 200, F32.fin 50, F32.fin 60⟩


/-! ## Lemmas on binary32 rounding -/

namespace F32

theorem pow2_pos (e : Int) : 0 < pow2 e := zpow_pos (by norm_num) e

theorem pow2_add (a b : Int) : pow2 (a + b) = pow2 a * pow2 b :=
  zpow_add₀ (by norm_num) a b

theorem pow2_le {a b : Int} (h : a ≤ b) : pow2 a ≤ pow2 b :=
  zpow_le_zpow_right₀ (by norm_num) h

theorem pow2_lt {a b : Int} (h : a < b) : pow2 a < pow2 b :=
  zpow_lt_zpow_right₀ (by norm_num) h

theorem lt_of_pow2_lt {a b : Int} (h : pow2 a < pow2 b) : a < b := by
  by_contra hn
  exact absurd (pow2_le (not_lt.1 hn)) (not_le.2 h)

theorem pow2_natCast (n : Nat) : pow2 (n : Int) = ((2 ^ n : Nat) : ℚ) := by
  unfold pow2
  rw [zpow_natCast]
  push_cast
  rfl

theorem pow2_zero : pow2 0 = 1 := by
  unfold pow2
  simp

theorem log2Fuel_spec (fuel : Nat) :
    ∀ n : Nat, n ≠ 0 → n ≤ fuel →
      2 ^ log2Fuel fuel n ≤ n ∧ n < 2 ^ (log2Fuel fuel n + 1) := by
  induction fuel with
  | zero => intro n h0 h1; omega
  | succ fuel ih =>
    intro n h0 h1
    unfold log2Fuel
    by_cases h2 : n < 2
    · rw [if_pos h2]
      simp only [pow_zero, zero_add, pow_one]
      omega
    · rw [if_neg h2]
      obtain ⟨i1, i2⟩ := ih (n / 2) (by omega) (by omega)
      generalize log2Fuel fuel (n / 2) = k at i1 i2
      have p1 : 2 ^ (k + 1) = 2 * 2 ^ k := by ring
      have p2 : 2 ^ (k + 1 + 1) = 4 * 2 ^ k := by ring
      rw [p1] at i2
      rw [p1, p2]
      omega

theorem nlog2_spec (n : Nat) (h : n ≠ 0) :
    2 ^ nlog2 n ≤ n ∧ n < 2 ^ (nlog2 n + 1) :=
  log2Fuel_spec n n h (le_refl _)

theorem rat_eq_natAbs_div (a : ℚ) (ha : 0 < a) :
    a = (a.num.natAbs : ℚ) / (a.den : ℚ) := by
  have hnum : 0 < a.num := Rat.num_pos.2 ha
  have h1 : (a.num.natAbs : Int) = a.num := Int.natAbs_of_nonneg (le_of_lt hnum)
  have h2 : (a.num.natAbs : ℚ) = (a.num : ℚ) := by
    rw [← Int.cast_natCast, h1]
  rw [h2]
  exact (Rat.num_div_den a).symm

theorem ilog2_spec (a : ℚ) (ha : 0 < a) :
    pow2 (ilog2 a) ≤ a ∧ a < pow2 (ilog2 a + 1) := by
  have hnum : 0 < a.num := Rat.num_pos.2 ha
  have hn0 : a.num.natAbs ≠ 0 := by omega
  have hd0 : a.den ≠ 0 := a.den_nz
  obtain ⟨n1, n2⟩ := nlog2_spec a.num.natAbs hn0
  obtain ⟨d1, d2⟩ := nlog2_spec a.den hd0
  have hdpos : (0 : ℚ) < (a.den : ℚ) := by exact_mod_cast Nat.pos_of_ne_zero hd0
  have hrep := rat_eq_natAbs_div a ha
  have n1q : pow2 (nlog2 a.num.natAbs : Int) ≤ (a.num.natAbs : ℚ) := by
    rw [pow2_natCast]; exact_mod_cast n1
  have n2q : (a.num.natAbs : ℚ) < pow2 ((nlog2 a.num.natAbs : Int) + 1) := by
    have : ((nlog2 a.num.natAbs : Int) + 1) = ((nlog2 a.num.natAbs + 1 : Nat) : Int) := by
      push_cast; rfl
    rw [this, pow2_natCast]; exact_mod_cast n2
  have d1q : pow2 (nlog2 a.den : Int) ≤ (a.den : ℚ) := by
    rw [pow2_natCast]; exact_mod_cast d1
  have d2q : (a.den : ℚ) < pow2 ((nlog2 a.den : Int) + 1) := by
    have : ((nlog2 a.den : Int) + 1) = ((nlog2 a.den + 1 : Nat) : Int) := by
      push_cast; rfl
    rw [this, pow2_natCast]; exact_mod_cast d2
  -- a lies strictly between 2^(e0-1) and 2^(e0+1)
  have hlow : pow2 ((nlog2 a.num.natAbs : Int) - (nlog2 a.den : Int) - 1) ≤ a := by
    have e : pow2 ((nlog2 a.num.natAbs : Int) - (nlog2 a.den : Int) - 1) *
        pow2 ((nlog2 a.den : Int) + 1) = pow2 (nlog2 a.num.natAbs : Int) := by
      rw [← pow2_add]; congr 1; ring
    refine le_of_le_of_eq ?_ hrep.symm
    rw [le_div_iff₀ hdpos]
    calc pow2 ((nlog2 a.num.natAbs : Int) - (nlog2 a.den : Int) - 1) * (a.den : ℚ)
        ≤ pow2 ((nlog2 a.num.natAbs : Int) - (nlog2 a.den : Int) - 1) *
            pow2 ((nlog2 a.den : Int) + 1) :=
          mul_le_mul_of_nonneg_left (le_of_lt d2q) (le_of_lt (pow2_pos _))
      _ = pow2 (nlog2 a.num.natAbs : Int) := e
      _ ≤ (a.num.natAbs : ℚ) := n1q
  have hhigh : a < pow2 ((nlog2 a.num.natAbs : Int) - (nlog2 a.den : Int) + 1) := by
    have e : pow2 ((nlog2 a.num.natAbs : Int) - (nlog2 a.den : Int) + 1) *
        pow2 (nlog2 a.den : Int) = pow2 ((nlog2 a.num.natAbs : Int) + 1) := by
      rw [← pow2_add]; congr 1; ring
    refine lt_of_eq_of_lt hrep ?_
    rw [div_lt_iff₀ hdpos]
    calc (a.num.natAbs : ℚ) < pow2 ((nlog2 a.num.natAbs : Int) + 1) := n2q
      _ = pow2 ((nlog2 a.num.natAbs : Int) - (nlog2 a.den : Int) + 1) *
            pow2 (nlog2 a.den : Int) := e.symm
      _ ≤ pow2 ((nlog2 a.num.natAbs : Int) - (nlog2 a.den : Int) + 1) * (a.den : ℚ) :=
          mul_le_mul_of_nonneg_left d1q (le_of_lt (pow2_pos _))
  unfold ilog2
  simp only []
  by_cases hc : a < pow2 ((nlog2 a.num.natAbs : Int) - (nlog2 a.den : Int))
  · rw [if_pos hc]
    refine ⟨hlow, ?_⟩
    have : (nlog2 a.num.natAbs : Int) - (nlog2 a.den : Int) - 1 + 1 =
        (nlog2 a.num.natAbs : Int) - (nlog2 a.den : Int) := by ring
    rw [this]
    exact hc
  · rw [if_neg hc]
    exact ⟨not_lt.1 hc, hhigh⟩

theorem ilog2_unique (a : ℚ) (e : Int) (h1 : pow2 e ≤ a) (h2 : a < pow2 (e + 1)) :
    ilog2 a = e := by
  have ha : 0 < a := lt_of_lt_of_le (pow2_pos e) h1
  obtain ⟨s1, s2⟩ := ilog2_spec a ha
  have c1 : e < ilog2 a + 1 := lt_of_pow2_lt (lt_of_le_of_lt h1 s2)
  have c2 : ilog2 a < e + 1 := lt_of_pow2_lt (lt_of_le_of_lt s1 h2)
  omega

theorem ilog2_mono (a b : ℚ) (ha : 0 < a) (hab : a ≤ b) : ilog2 a ≤ ilog2 b := by
  obtain ⟨s1, _⟩ := ilog2_spec a ha
  obtain ⟨_, t2⟩ := ilog2_spec b (lt_of_lt_of_le ha hab)
  have : ilog2 a < ilog2 b + 1 := lt_of_pow2_lt (lt_of_le_of_lt (le_trans s1 hab) t2)
  omega

theorem roundHalfEven_le (m : ℚ) : (roundHalfEven m : ℚ) ≤ m + 1 / 2 := by
  have h1 := Int.floor_le m
  have h2 := Int.lt_floor_add_one m
  unfold roundHalfEven
  simp only []
  split
  · linarith
  · split
    · push_cast; linarith
    · split
      · linarith
      · rename_i ha hb _
        push_cast
        linarith

theorem roundHalfEven_ge (m : ℚ) : m - 1 / 2 ≤ (roundHalfEven m : ℚ) := by
  have h1 := Int.floor_le m
  have h2 := Int.lt_floor_add_one m
  unfold roundHalfEven
  simp only []
  split
  · rename_i ha; linarith
  · split
    · push_cast; linarith
    · split
      · rename_i ha hb _
        linarith
      · push_cast; linarith

theorem roundHalfEven_intCast (n : Int) : roundHalfEven (n : ℚ) = n := by
  unfold roundHalfEven
  simp only [Int.floor_intCast, sub_self]
  rw [if_pos (by norm_num)]

theorem roundHalfEven_mono (a b : ℚ) (h : a ≤ b) : roundHalfEven a ≤ roundHalfEven b := by
  by_contra hn
  have hlt : roundHalfEven b + 1 ≤ roundHalfEven a := by omega
  have hq : ((roundHalfEven b : ℚ)) + 1 ≤ (roundHalfEven a : ℚ) := by exact_mod_cast hlt
  have h1 := roundHalfEven_le a
  have h2 := roundHalfEven_ge b
  have hab : a = b := le_antisymm h (by linarith)
  rw [hab] at hn
  exact hn (le_refl _)

theorem le_roundHalfEven (n : Int) (m : ℚ) (h : (n : ℚ) ≤ m) : n ≤ roundHalfEven m := by
  have := roundHalfEven_mono _ _ h
  rwa [roundHalfEven_intCast] at this

theorem roundHalfEven_le_int (n : Int) (m : ℚ) (h : m ≤ (n : ℚ)) : roundHalfEven m ≤ n := by
  have := roundHalfEven_mono _ _ h
  rwa [roundHalfEven_intCast] at this

end F32

namespace F32

theorem ulp_pos (a : ℚ) : 0 < ulp a := pow2_pos _

theorem pow2_intCast_eq (n : Nat) : pow2 (n : Int) = (((2 : Int) ^ n : Int) : ℚ) := by
  unfold pow2
  rw [zpow_natCast]
  push_cast
  rfl

/-- For `a > 0` with exponent `E = max (ilog2 a) (-126)`, the quotient
`a / ulp a` lies below `2^24`, and at or above `2^23` in the normal range. -/
theorem div_ulp_lt (a : ℚ) (ha : 0 < a) : a / ulp a < pow2 24 := by
  obtain ⟨_, s2⟩ := ilog2_spec a ha
  rw [div_lt_iff₀ (ulp_pos a)]
  unfold ulp
  rw [← pow2_add]
  have hle : ilog2 a + 1 ≤ 24 + (max (ilog2 a) (-126) - 23) := by
    have := le_max_left (ilog2 a) (-126)
    omega
  exact lt_of_lt_of_le s2 (pow2_le hle)

theorem le_div_ulp (a : ℚ) (h : pow2 (max (ilog2 a) (-126)) ≤ a) :
    pow2 23 ≤ a / ulp a := by
  rw [le_div_iff₀ (ulp_pos a)]
  unfold ulp
  rw [← pow2_add]
  have : 23 + (max (ilog2 a) (-126) - 23) = max (ilog2 a) (-126) := by ring
  rw [this]
  exact h

theorem rneAbs_nonneg (a : ℚ) (ha : 0 ≤ a) : 0 ≤ rneAbs a := by
  unfold rneAbs
  split
  · exact le_refl _
  · apply mul_nonneg _ (le_of_lt (ulp_pos a))
    have h0 : ((0 : Int) : ℚ) ≤ a / ulp a := by
      push_cast
      exact div_nonneg ha (le_of_lt (ulp_pos a))
    exact_mod_cast le_roundHalfEven 0 _ h0

theorem rneAbs_le_pow2 (a : ℚ) (ha : 0 < a) :
    rneAbs a ≤ pow2 (max (ilog2 a) (-126) + 1) := by
  unfold rneAbs
  rw [if_neg (ne_of_gt ha)]
  have h1 : a / ulp a ≤ (((2 : Int) ^ 24 : Int) : ℚ) := by
    have := div_ulp_lt a ha
    rw [show (24 : Int) = ((24 : Nat) : Int) from rfl, pow2_intCast_eq] at this
    exact le_of_lt this
  have h2 : (roundHalfEven (a / ulp a) : ℚ) ≤ (((2 : Int) ^ 24 : Int) : ℚ) := by
    exact_mod_cast roundHalfEven_le_int _ _ h1
  have h3 : pow2 (max (ilog2 a) (-126) + 1) = (((2 : Int) ^ 24 : Int) : ℚ) * ulp a := by
    rw [← pow2_intCast_eq]
    unfold ulp
    rw [← pow2_add]
    congr 1
    push_cast
    ring
  rw [h3]
  exact mul_le_mul_of_nonneg_right h2 (le_of_lt (ulp_pos a))

theorem pow2_le_rneAbs (a : ℚ) (h : pow2 (max (ilog2 a) (-126)) ≤ a) :
    pow2 (max (ilog2 a) (-126)) ≤ rneAbs a := by
  have ha : 0 < a := lt_of_lt_of_le (pow2_pos _) h
  unfold rneAbs
  rw [if_neg (ne_of_gt ha)]
  have h1 : (((2 : Int) ^ 23 : Int) : ℚ) ≤ a / ulp a := by
    have := le_div_ulp a h
    rw [show (23 : Int) = ((23 : Nat) : Int) from rfl, pow2_intCast_eq] at this
    exact this
  have h2 : (((2 : Int) ^ 23 : Int) : ℚ) ≤ (roundHalfEven (a / ulp a) : ℚ) := by
    exact_mod_cast le_roundHalfEven _ _ h1
  have h3 : pow2 (max (ilog2 a) (-126)) = (((2 : Int) ^ 23 : Int) : ℚ) * ulp a := by
    rw [← pow2_intCast_eq]
    unfold ulp
    rw [← pow2_add]
    congr 1
    push_cast
    ring
  rw [h3]
  exact mul_le_mul_of_nonneg_right h2 (le_of_lt (ulp_pos a))

theorem rneAbs_mono (a b : ℚ) (ha : 0 ≤ a) (hab : a ≤ b) : rneAbs a ≤ rneAbs b := by
  rcases eq_or_lt_of_le ha with h0 | hpos
  · rw [← h0]
    have : rneAbs 0 = 0 := by simp [rneAbs]
    rw [this]
    exact rneAbs_nonneg b (le_trans ha hab)
  · have hb : 0 < b := lt_of_lt_of_le hpos hab
    have hlog := ilog2_mono a b hpos hab
    have hE : max (ilog2 a) (-126) ≤ max (ilog2 b) (-126) := max_le_max hlog (le_refl _)
    rcases eq_or_lt_of_le hE with heq | hlt
    · have hu : ulp a = ulp b := by unfold ulp; rw [heq]
      unfold rneAbs
      rw [if_neg (ne_of_gt hpos), if_neg (ne_of_gt hb), hu]
      apply mul_le_mul_of_nonneg_right _ (le_of_lt (ulp_pos b))
      have : a / ulp b ≤ b / ulp b := div_le_div_of_nonneg_right hab (le_of_lt (ulp_pos b))
      exact_mod_cast roundHalfEven_mono _ _ this
    · have h1 := rneAbs_le_pow2 a hpos
      have hbE : max (ilog2 b) (-126) = ilog2 b := by
        apply max_eq_left
        have := le_max_right (ilog2 a) (-126)
        omega
      have h2 : pow2 (max (ilog2 b) (-126)) ≤ b := by
        rw [hbE]; exact (ilog2_spec b hb).1
      have h3 := pow2_le_rneAbs b h2
      have h4 : pow2 (max (ilog2 a) (-126) + 1) ≤ pow2 (max (ilog2 b) (-126)) :=
        pow2_le (by omega)
      exact le_trans h1 (le_trans h4 h3)

/-- Values `n * 2^k` with `n < 2^24` and `k ≥ -149` are binary32 values: the
rounding leaves them unchanged. -/
theorem rneAbs_exact (n : Nat) (k : Int) (hn : n < 2 ^ 24) (hk : -149 ≤ k) :
    rneAbs ((n : ℚ) * pow2 k) = (n : ℚ) * pow2 k := by
  rcases Nat.eq_zero_or_pos n with h0 | hpos
  · rw [h0]; simp [rneAbs]
  · have hnq : (0 : ℚ) < (n : ℚ) := by exact_mod_cast hpos
    have ha : 0 < (n : ℚ) * pow2 k := mul_pos hnq (pow2_pos k)
    have hlt : (n : ℚ) * pow2 k < pow2 (24 + k) := by
      rw [pow2_add]
      apply mul_lt_mul_of_pos_right _ (pow2_pos k)
      rw [show (24 : Int) = ((24 : Nat) : Int) from rfl, pow2_natCast]
      exact_mod_cast hn
    have he : ilog2 ((n : ℚ) * pow2 k) < 24 + k :=
      lt_of_pow2_lt (lt_of_le_of_lt (ilog2_spec _ ha).1 hlt)
    have hE : max (ilog2 ((n : ℚ) * pow2 k)) (-126) - 23 ≤ k := by
      have : max (ilog2 ((n : ℚ) * pow2 k)) (-126) ≤ 23 + k := max_le (by omega) (by omega)
      omega
    obtain ⟨d, hd⟩ : ∃ d : Nat, k = (max (ilog2 ((n : ℚ) * pow2 k)) (-126) - 23) + (d : Int) :=
      ⟨(k - (max (ilog2 ((n : ℚ) * pow2 k)) (-126) - 23)).toNat, by omega⟩
    have hq : (n : ℚ) * pow2 k / ulp ((n : ℚ) * pow2 k) = (((n * 2 ^ d : Nat) : Int) : ℚ) := by
      rw [div_eq_iff (ne_of_gt (ulp_pos _))]
      unfold ulp
      conv_lhs => rw [hd, pow2_add, pow2_natCast]
      push_cast
      ring
    unfold rneAbs
    rw [if_neg (ne_of_gt ha), hq, roundHalfEven_intCast, ← hq]
    exact div_mul_cancel₀ _ (ne_of_gt (ulp_pos _))

/-- In the normal range the rounding error is at most half a unit in the last
place, hence at most `2^-24` relative. -/
theorem rneAbs_le_rel (a : ℚ) (h : pow2 (-126) ≤ a) :
    rneAbs a ≤ a * (1 + pow2 (-24)) := by
  have ha : 0 < a := lt_of_lt_of_le (pow2_pos _) h
  obtain ⟨s1, _⟩ := ilog2_spec a ha
  have he : -126 ≤ ilog2 a := by
    have : -126 < ilog2 a + 1 :=
      lt_of_pow2_lt (lt_of_le_of_lt h (ilog2_spec a ha).2)
    omega
  have hE : max (ilog2 a) (-126) = ilog2 a := max_eq_left he
  unfold rneAbs
  rw [if_neg (ne_of_gt ha)]
  have h1 := roundHalfEven_le (a / ulp a)
  have h2 : (roundHalfEven (a / ulp a) : ℚ) * ulp a ≤ (a / ulp a + 1 / 2) * ulp a :=
    mul_le_mul_of_nonneg_right h1 (le_of_lt (ulp_pos a))
  have h3 : (a / ulp a + 1 / 2) * ulp a = a + ulp a / 2 := by
    have hu : ulp a ≠ 0 := ne_of_gt (ulp_pos a)
    field_simp
    ring
  have h4 : ulp a / 2 = pow2 (ilog2 a) * pow2 (-24) := by
    unfold ulp
    rw [hE, ← pow2_add]
    have : ilog2 a + -24 = (ilog2 a - 23) + (-1) := by ring
    rw [this, pow2_add]
    have : pow2 (-1) = 1 / 2 := by unfold pow2; norm_num
    rw [this]
    ring
  have h5 : pow2 (ilog2 a) * pow2 (-24) ≤ a * pow2 (-24) :=
    mul_le_mul_of_nonneg_right s1 (le_of_lt (pow2_pos _))
  calc (roundHalfEven (a / ulp a) : ℚ) * ulp a ≤ a + ulp a / 2 := by rw [← h3]; exact h2
    _ = a + pow2 (ilog2 a) * pow2 (-24) := by rw [h4]
    _ ≤ a + a * pow2 (-24) := by linarith
    _ = a * (1 + pow2 (-24)) := by ring

theorem rneAbs_zero : rneAbs 0 = 0 := by simp [rneAbs]

theorem rne_zero : rne 0 = 0 := by simp [rne, rneAbs]

theorem rne_of_nonneg (q : ℚ) (h : 0 ≤ q) : rne q = rneAbs q := by
  unfold rne
  rw [if_neg (not_lt.2 h)]

theorem rne_of_neg (q : ℚ) (h : q < 0) : rne q = -rneAbs (-q) := by
  unfold rne
  rw [if_pos h]

theorem rne_nonneg (q : ℚ) (h : 0 ≤ q) : 0 ≤ rne q := by
  rw [rne_of_nonneg q h]
  exact rneAbs_nonneg q h

theorem rne_nonpos (q : ℚ) (h : q ≤ 0) : rne q ≤ 0 := by
  rcases eq_or_lt_of_le h with h0 | hneg
  · rw [h0, rne_zero]
  · rw [rne_of_neg q hneg]
    have := rneAbs_nonneg (-q) (by linarith)
    linarith

/-- Rounding to nearest is monotone. -/
theorem rne_mono (a b : ℚ) (h : a ≤ b) : rne a ≤ rne b := by
  by_cases ha : a < 0
  · by_cases hb : b < 0
    · rw [rne_of_neg a ha, rne_of_neg b hb]
      have := rneAbs_mono (-b) (-a) (by linarith) (by linarith)
      linarith
    · exact le_trans (rne_nonpos a (le_of_lt ha)) (rne_nonneg b (not_lt.1 hb))
  · have ha0 : 0 ≤ a := not_lt.1 ha
    rw [rne_of_nonneg a ha0, rne_of_nonneg b (le_trans ha0 h)]
    exact rneAbs_mono a b ha0 h

theorem rne_neg (q : ℚ) : rne (-q) = -rne q := by
  rcases lt_trichotomy q 0 with h | h | h
  · rw [rne_of_neg q h, rne_of_nonneg (-q) (by linarith)]
    ring
  · rw [h]; simp [rne_zero]
  · rw [rne_of_neg (-q) (by linarith), rne_of_nonneg q (le_of_lt h)]
    simp

/-- Integers of magnitude below `2^24` are binary32 values. -/
theorem rne_intCast (n : Int) (h1 : -(2 : Int) ^ 24 < n) (h2 : n < (2 : Int) ^ 24) :
    rne (n : ℚ) = (n : ℚ) := by
  by_cases hn : 0 ≤ n
  · have hq : (0 : ℚ) ≤ (n : ℚ) := by exact_mod_cast hn
    rw [rne_of_nonneg _ hq]
    have h := rneAbs_exact n.toNat 0 (by omega) (by decide)
    rw [pow2_zero, mul_one] at h
    have hc : ((n.toNat : Nat) : ℚ) = (n : ℚ) := by
      have : ((n.toNat : Nat) : Int) = n := Int.toNat_of_nonneg hn
      rw [← Int.cast_natCast, this]
    rwa [hc] at h
  · have hq : (n : ℚ) < 0 := by exact_mod_cast (not_le.1 hn)
    rw [rne_of_neg _ hq]
    have h := rneAbs_exact (-n).toNat 0 (by omega) (by decide)
    rw [pow2_zero, mul_one] at h
    have hc : (((-n).toNat : Nat) : ℚ) = -(n : ℚ) := by
      have : (((-n).toNat : Nat) : Int) = -n := Int.toNat_of_nonneg (by omega)
      rw [← Int.cast_natCast, this]
      push_cast
      rfl
    rw [hc] at h
    rw [h]
    ring

end F32

namespace F32

theorem ofRat_zero : ofRat 0 = fin 0 := by
  have h1 : ¬ pow2 128 ≤ (0 : ℚ) := not_le.2 (pow2_pos 128)
  have h2 : ¬ (0 : ℚ) ≤ -pow2 128 := by
    have := pow2_pos 128
    intro h; linarith
  simp only [ofRat, rne_zero, if_neg h1, if_neg h2, lt_irrefl, and_false, if_false]

/-- The three outcomes of rounding a rational: an infinity on overflow, else
a finite value whose numeric value is the rounded rational. -/
theorem ofRat_spec (q : ℚ) :
    (pow2 128 ≤ rne q ∧ ofRat q = pinf) ∨ (rne q ≤ -pow2 128 ∧ ofRat q = ninf) ∨
    (-pow2 128 < rne q ∧ rne q < pow2 128 ∧ (ofRat q).isFinite = true ∧
      (ofRat q).num = rne q) := by
  unfold ofRat
  simp only []
  by_cases h1 : pow2 128 ≤ rne q
  · left
    exact ⟨h1, by rw [if_pos h1]⟩
  · rw [if_neg h1]
    by_cases h2 : rne q ≤ -pow2 128
    · right; left
      exact ⟨h2, by rw [if_pos h2]⟩
    · rw [if_neg h2]
      right; right
      refine ⟨not_le.1 h2, not_le.1 h1, ?_, ?_⟩
      · split <;> rfl
      · split
        · rename_i h
          simp only [num]
          exact h.1.symm
        · rfl

theorem isNaN_of_isFinite {a : F32} (h : a.isFinite = true) : a.isNaN = false := by
  cases a <;> simp_all [isFinite, isNaN]

theorem cls_of_isFinite {a : F32} (h : a.isFinite = true) : a.cls = 0 := by
  cases a <;> simp_all [isFinite, cls]

theorem ofRat_isNaN (q : ℚ) : (ofRat q).isNaN = false := by
  rcases ofRat_spec q with ⟨_, h⟩ | ⟨_, h⟩ | ⟨_, _, h, _⟩
  · rw [h]; rfl
  · rw [h]; rfl
  · exact isNaN_of_isFinite h

theorem le_refl_of {a : F32} (h : a.isNaN = false) : le a a :=
  ⟨h, h, Or.inr ⟨rfl, le_refl _⟩⟩

theorem le_trans_of {a b c : F32} (h1 : le a b) (h2 : le b c) : le a c := by
  obtain ⟨a1, _, a3⟩ := h1
  obtain ⟨_, b2, b3⟩ := h2
  refine ⟨a1, b2, ?_⟩
  rcases a3 with h | ⟨h, h'⟩
  · rcases b3 with g | ⟨g, _⟩
    · left; omega
    · left; omega
  · rcases b3 with g | ⟨g, g'⟩
    · left; omega
    · right; exact ⟨by omega, le_trans h' g'⟩

theorem le_pinf {a : F32} (h : a.isNaN = false) : le a pinf := by
  refine ⟨h, rfl, ?_⟩
  cases a <;> simp_all [cls, num, isNaN]

theorem ninf_le {a : F32} (h : a.isNaN = false) : le ninf a := by
  refine ⟨rfl, h, ?_⟩
  cases a <;> simp_all [cls, num, isNaN]

theorem le_of_finite {a b : F32} (ha : a.isFinite = true) (hb : b.isFinite = true)
    (h : a.num ≤ b.num) : le a b :=
  ⟨isNaN_of_isFinite ha, isNaN_of_isFinite hb,
    Or.inr ⟨by rw [cls_of_isFinite ha, cls_of_isFinite hb], h⟩⟩

theorem num_le_of_le {a b : F32} (ha : a.isFinite = true) (hb : b.isFinite = true)
    (h : le a b) : a.num ≤ b.num := by
  obtain ⟨_, _, h3⟩ := h
  rw [cls_of_isFinite ha, cls_of_isFinite hb] at h3
  rcases h3 with h | ⟨_, h⟩
  · omega
  · exact h

/-- Rounding is monotone into the order of binary32 values. -/
theorem ofRat_le (a b : ℚ) (h : a ≤ b) : le (ofRat a) (ofRat b) := by
  have hm := rne_mono a b h
  have hp := pow2_pos 128
  rcases ofRat_spec b with ⟨_, hb⟩ | ⟨b1, hb⟩ | ⟨b1, b2, b3, b4⟩
  · rw [hb]; exact le_pinf (ofRat_isNaN a)
  · rcases ofRat_spec a with ⟨a1, _⟩ | ⟨_, ha⟩ | ⟨a1, _, _, _⟩
    · linarith
    · rw [ha, hb]; exact le_refl_of rfl
    · linarith
  · rcases ofRat_spec a with ⟨a1, _⟩ | ⟨_, ha⟩ | ⟨_, _, a3, a4⟩
    · linarith
    · rw [ha]; exact ninf_le (ofRat_isNaN b)
    · exact le_of_finite a3 b3 (by rw [a4, b4]; exact hm)

theorem ofRat_of_nonneg (q : ℚ) (h0 : 0 ≤ q) (h : rne q < pow2 128) :
    ofRat q = fin (rne q) := by
  have hr := rne_nonneg q h0
  have hp := pow2_pos 128
  unfold ofRat
  simp only []
  rw [if_neg (not_le.2 h), if_neg (by intro hc; linarith),
    if_neg (by rintro ⟨_, hc⟩; linarith)]

theorem pow2_24_lt_128 : pow2 24 < pow2 128 := pow2_lt (by decide)

/-- The conversion of an `int` of magnitude below `2^24` is exact. -/
theorem ofInt_exact (n : Int) (h0 : 0 ≤ n) (h2 : n < (2 : Int) ^ 24) :
    ofInt n = fin (n : ℚ) := by
  have hr := rne_intCast n (by omega) h2
  have hq : (0 : ℚ) ≤ (n : ℚ) := by exact_mod_cast h0
  have hlt : (n : ℚ) < pow2 128 := by
    have h24 : (n : ℚ) < pow2 24 := by
      rw [show (24 : Int) = ((24 : Nat) : Int) from rfl, pow2_intCast_eq]
      exact_mod_cast h2
    exact lt_trans h24 pow2_24_lt_128
  unfold ofInt
  rw [ofRat_of_nonneg _ hq (by rw [hr]; exact hlt), hr]

theorem pow2_exact (k : Int) (hk : -149 ≤ k) : rne (pow2 k) = pow2 k := by
  rw [rne_of_nonneg _ (le_of_lt (pow2_pos k))]
  have := rneAbs_exact 1 k (by decide) hk
  simpa using this

/-- A positive `int` converts to a finite value between `1` and `2^31`. -/
theorem ofInt_pos (n : Int) (h1 : 1 ≤ n) (h2 : n < (2 : Int) ^ 31) :
    ∃ w : ℚ, ofInt n = fin w ∧ 1 ≤ w ∧ w ≤ pow2 31 ∧ rne w = w := by
  have hq1 : (1 : ℚ) ≤ (n : ℚ) := by exact_mod_cast h1
  have hq2 : (n : ℚ) ≤ pow2 31 := by
    rw [show (31 : Int) = ((31 : Nat) : Int) from rfl, pow2_intCast_eq]
    exact_mod_cast (le_of_lt h2)
  have e1 : rne 1 = 1 := by
    have := pow2_exact 0 (by decide)
    rwa [pow2_zero] at this
  have l1 : 1 ≤ rne (n : ℚ) := by
    have := rne_mono 1 (n : ℚ) hq1
    rwa [e1] at this
  have l2 : rne (n : ℚ) ≤ pow2 31 := by
    have := rne_mono (n : ℚ) (pow2 31) hq2
    rwa [pow2_exact 31 (by decide)] at this
  have l3 : rne (n : ℚ) < pow2 128 := lt_of_le_of_lt l2 (pow2_lt (by decide))
  refine ⟨rne (n : ℚ), ?_, l1, l2, ?_⟩
  · unfold ofInt
    exact ofRat_of_nonneg _ (by linarith) l3
  · -- the rounded value is a fixed point of the rounding
    by_cases hsmall : n < (2 : Int) ^ 24
    · rw [rne_intCast n (by omega) hsmall]
      exact rne_intCast n (by omega) hsmall
    · -- idempotence through the integer quotient
      have hpos : (0 : ℚ) < (n : ℚ) := by linarith
      rw [rne_of_nonneg _ (le_of_lt hpos)]
      have hr0 : 0 ≤ rneAbs (n : ℚ) := rneAbs_nonneg _ (le_of_lt hpos)
      rw [rne_of_nonneg _ hr0]
      have hn24 : pow2 24 ≤ (n : ℚ) := by
        rw [show (24 : Int) = ((24 : Nat) : Int) from rfl, pow2_intCast_eq]
        exact_mod_cast (not_lt.1 hsmall)
      have he24 : 24 ≤ ilog2 (n : ℚ) := by
        have : (24 : Int) < ilog2 (n : ℚ) + 1 :=
          lt_of_pow2_lt (lt_of_le_of_lt hn24 (ilog2_spec _ hpos).2)
        omega
      have he31 : ilog2 (n : ℚ) < 31 := by
        have hlt : (n : ℚ) < pow2 31 := by
          rw [show (31 : Int) = ((31 : Nat) : Int) from rfl, pow2_intCast_eq]
          exact_mod_cast h2
        exact lt_of_pow2_lt (lt_of_le_of_lt (ilog2_spec _ hpos).1 hlt)
      have hE : max (ilog2 (n : ℚ)) (-126) = ilog2 (n : ℚ) := max_eq_left (by omega)
      obtain ⟨d, hd⟩ : ∃ d : Nat, ilog2 (n : ℚ) - 23 = (d : Int) :=
        ⟨(ilog2 (n : ℚ) - 23).toNat, by omega⟩
      have hd8 : d ≤ 7 := by omega
      have hu : ulp (n : ℚ) = pow2 (d : Int) := by unfold ulp; rw [hE, hd]
      have hval : rneAbs (n : ℚ) =
          (roundHalfEven ((n : ℚ) / ulp (n : ℚ)) : ℚ) * pow2 (d : Int) := by
        unfold rneAbs
        rw [if_neg (ne_of_gt hpos), hu]
      have hm0 : 0 ≤ roundHalfEven ((n : ℚ) / ulp (n : ℚ)) :=
        le_roundHalfEven 0 _ (by
          push_cast
          exact div_nonneg (le_of_lt hpos) (le_of_lt (ulp_pos _)))
      have hm24 : roundHalfEven ((n : ℚ) / ulp (n : ℚ)) ≤ (2 : Int) ^ 24 := by
        apply roundHalfEven_le_int
        have := div_ulp_lt (n : ℚ) hpos
        rw [show (24 : Int) = ((24 : Nat) : Int) from rfl, pow2_intCast_eq] at this
        exact le_of_lt this
      rcases eq_or_lt_of_le hm24 with heq | hlt
      · rw [hval, heq]
        have e24 : pow2 24 = (((2 : Int) ^ 24 : Int) : ℚ) := by
          rw [show (24 : Int) = ((24 : Nat) : Int) from rfl, pow2_intCast_eq]
        have e : (((2 : Int) ^ 24 : Int) : ℚ) * pow2 (d : Int) = pow2 ((24 : Int) + d) := by
          rw [pow2_add, e24]
        rw [e]
        have := pow2_exact ((24 : Int) + d) (by omega)
        rwa [rne_of_nonneg _ (le_of_lt (pow2_pos _))] at this
      · rw [hval]
        have hc : ((roundHalfEven ((n : ℚ) / ulp (n : ℚ))).toNat : ℚ) =
            (roundHalfEven ((n : ℚ) / ulp (n : ℚ)) : ℚ) := by
          rw [← Int.cast_natCast, Int.toNat_of_nonneg hm0]
        rw [← hc]
        exact rneAbs_exact _ (d : Int) (by omega) (by omega)

end F32

namespace F32

theorem finite_cases {a : F32} (h : a.isNaN = false) :
    a.isFinite = true ∨ a = pinf ∨ a = ninf := by
  cases a <;> simp_all [isFinite, isNaN]

/-- The order only looks at the class and the numeric value. -/
theorem le_of_repr {a b a2 b2 : F32} (h : le a2 b2)
    (ha1 : a.isNaN = a2.isNaN) (ha2 : a.cls = a2.cls) (ha3 : a.num = a2.num)
    (hb1 : b.isNaN = b2.isNaN) (hb2 : b.cls = b2.cls) (hb3 : b.num = b2.num) :
    le a b := by
  unfold le at *
  rw [ha1, ha2, ha3, hb1, hb2, hb3]
  exact h

theorem ofRat_repr_zero :
    (ofRat 0).isNaN = false ∧ (ofRat 0).cls = 0 ∧ (ofRat 0).num = 0 := by
  rw [ofRat_zero]
  exact ⟨rfl, rfl, rfl⟩

/-- The sum of two finite values is the rounded exact sum, up to the sign of
a zero. -/
theorem add_repr (a c : F32) (ha : a.isFinite = true) (hc : c.isFinite = true) :
    (add a c).isNaN = (ofRat (a.num + c.num)).isNaN ∧
    (add a c).cls = (ofRat (a.num + c.num)).cls ∧
    (add a c).num = (ofRat (a.num + c.num)).num := by
  have na := isNaN_of_isFinite ha
  have nc := isNaN_of_isFinite hc
  have ca := cls_of_isFinite ha
  have cc := cls_of_isFinite hc
  unfold add
  simp only [na, nc, ca, cc, Bool.or_self, Bool.false_eq_true, if_false, ne_eq,
    not_true_eq_false, or_self]
  by_cases hs : a.num + c.num = 0
  · rw [if_pos hs, hs]
    obtain ⟨z1, z2, z3⟩ := ofRat_repr_zero
    rw [z1, z2, z3]
    split <;> exact ⟨rfl, rfl, rfl⟩
  · rw [if_neg hs]
    exact ⟨rfl, rfl, rfl⟩

theorem add_pinf (c : F32) (hc : c.isFinite = true) : add pinf c = pinf := by
  cases c <;> simp_all [isFinite, add, isNaN, cls]

theorem add_ninf (c : F32) (hc : c.isFinite = true) : add ninf c = ninf := by
  cases c <;> simp_all [isFinite, add, isNaN, cls]

theorem add_isNaN (a c : F32) (ha : a.isNaN = false) (hc : c.isFinite = true) :
    (add a c).isNaN = false := by
  rcases finite_cases ha with h | h | h
  · rw [(add_repr a c h hc).1]
    exact ofRat_isNaN _
  · rw [h, add_pinf c hc]; rfl
  · rw [h, add_ninf c hc]; rfl

/-- Addition of a finite value is monotone in the other operand. -/
theorem add_mono_left (a b c : F32) (h : le a b) (hc : c.isFinite = true) :
    le (add a c) (add b c) := by
  have na := h.1
  have nb := h.2.1
  rcases finite_cases nb with hb | hb | hb
  · rcases finite_cases na with ha | ha | ha
    · obtain ⟨a1, a2, a3⟩ := add_repr a c ha hc
      obtain ⟨b1, b2, b3⟩ := add_repr b c hb hc
      refine le_of_repr (ofRat_le _ _ ?_) a1 a2 a3 b1 b2 b3
      have := num_le_of_le ha hb h
      linarith
    · exfalso
      rw [ha] at h
      obtain ⟨_, _, h3⟩ := h
      rw [cls_of_isFinite hb] at h3
      simp [cls] at h3
    · rw [ha, add_ninf c hc]
      exact ninf_le (add_isNaN b c nb hc)
  · rw [hb, add_pinf c hc]
    exact le_pinf (add_isNaN a c na hc)
  · have ha : a = ninf := by
      rw [hb] at h
      obtain ⟨_, _, h3⟩ := h
      cases a <;> simp_all [cls, num, isNaN]
    rw [ha, hb]
    exact le_refl_of (add_isNaN ninf c rfl hc)

theorem neg_finite (c : F32) (hc : c.isFinite = true) :
    (neg c).isFinite = true ∧ (neg c).num = -c.num := by
  cases c with
  | fin q =>
    by_cases hq : q = 0
    · simp [neg, hq, isFinite, num]
    · simp [neg, hq, isFinite, num]
  | nzero => simp [neg, isFinite, num]
  | pinf => simp [isFinite] at hc
  | ninf => simp [isFinite] at hc
  | nan => simp [isFinite] at hc

/-- Subtraction of a finite value is monotone in the first operand. -/
theorem sub_mono_left (a b c : F32) (h : le a b) (hc : c.isFinite = true) :
    le (sub a c) (sub b c) :=
  add_mono_left a b (neg c) h (neg_finite c hc).1

/-- The difference of two finite values is the rounded exact difference, up
to the sign of a zero. -/
theorem sub_repr (a c : F32) (ha : a.isFinite = true) (hc : c.isFinite = true) :
    (sub a c).isNaN = (ofRat (a.num - c.num)).isNaN ∧
    (sub a c).cls = (ofRat (a.num - c.num)).cls ∧
    (sub a c).num = (ofRat (a.num - c.num)).num := by
  have h := add_repr a (neg c) ha (neg_finite c hc).1
  rw [(neg_finite c hc).2] at h
  have e : a.num + -c.num = a.num - c.num := by ring
  rw [e] at h
  exact h

/-- The quotient of a finite value by a nonzero finite value is the rounded
exact quotient, up to the sign of a zero. -/
theorem div_repr (a : F32) (s : ℚ) (ha : a.isFinite = true) (hs : s ≠ 0) :
    (div a (fin s)).isNaN = (ofRat (a.num / s)).isNaN ∧
    (div a (fin s)).cls = (ofRat (a.num / s)).cls ∧
    (div a (fin s)).num = (ofRat (a.num / s)).num := by
  obtain ⟨z1, z2, z3⟩ := ofRat_repr_zero
  have hz : ∀ b : Bool, (zeroS b).isNaN = false ∧ (zeroS b).cls = 0 ∧ (zeroS b).num = 0 := by
    intro b
    cases b <;> exact ⟨rfl, rfl, rfl⟩
  cases a with
  | fin q =>
    by_cases h0 : q = 0
    · have e : div (fin q) (fin s) = zeroS (xor (fin q).signBit (fin s).signBit) := by
        simp [div, isNaN, cls, num, hs, h0]
      have hq0 : (fin q).num / s = 0 := by
        show q / s = 0
        rw [h0, zero_div]
      rw [e, hq0, z1, z2, z3]
      exact hz _
    · have e : div (fin q) (fin s) = ofRat (q / s) := by
        simp [div, isNaN, cls, num, hs, h0]
      rw [e]
      exact ⟨rfl, rfl, rfl⟩
  | nzero =>
    have e : div nzero (fin s) = zeroS (xor nzero.signBit (fin s).signBit) := by
      simp [div, isNaN, cls, num, hs]
    have hq0 : nzero.num / s = 0 := by
      show (0 : ℚ) / s = 0
      rw [zero_div]
    rw [e, hq0, z1, z2, z3]
    exact hz _
  | pinf => simp [isFinite] at ha
  | ninf => simp [isFinite] at ha
  | nan => simp [isFinite] at ha

theorem div_pinf (s : ℚ) (hs : 0 < s) : div pinf (fin s) = pinf := by
  simp [div, isNaN, cls, infS, signBit, not_lt.2 (le_of_lt hs)]

theorem div_ninf (s : ℚ) (hs : 0 < s) : div ninf (fin s) = ninf := by
  simp [div, isNaN, cls, infS, signBit, not_lt.2 (le_of_lt hs)]

theorem div_isNaN (a : F32) (s : ℚ) (ha : a.isNaN = false) (hs : 0 < s) :
    (div a (fin s)).isNaN = false := by
  rcases finite_cases ha with h | h | h
  · rw [(div_repr a s h (ne_of_gt hs)).1]
    exact ofRat_isNaN _
  · rw [h, div_pinf s hs]; rfl
  · rw [h, div_ninf s hs]; rfl

/-- Division by a positive finite value is monotone. -/
theorem div_mono_left (a b : F32) (s : ℚ) (h : le a b) (hs : 0 < s) :
    le (div a (fin s)) (div b (fin s)) := by
  have na := h.1
  have nb := h.2.1
  rcases finite_cases nb with hb | hb | hb
  · rcases finite_cases na with ha | ha | ha
    · obtain ⟨a1, a2, a3⟩ := div_repr a s ha (ne_of_gt hs)
      obtain ⟨b1, b2, b3⟩ := div_repr b s hb (ne_of_gt hs)
      refine le_of_repr (ofRat_le _ _ ?_) a1 a2 a3 b1 b2 b3
      exact div_le_div_of_nonneg_right (num_le_of_le ha hb h) (le_of_lt hs)
    · exfalso
      rw [ha] at h
      obtain ⟨_, _, h3⟩ := h
      rw [cls_of_isFinite hb] at h3
      simp [cls] at h3
    · rw [ha, div_ninf s hs]
      exact ninf_le (div_isNaN b s nb hs)
  · rw [hb, div_pinf s hs]
    exact le_pinf (div_isNaN a s na hs)
  · have ha : a = ninf := by
      rw [hb] at h
      obtain ⟨_, _, h3⟩ := h
      cases a <;> simp_all [cls, num, isNaN]
    rw [ha, hb]
    exact le_refl_of (div_isNaN ninf s rfl hs)

theorem lt_fin_fin (a b : ℚ) : lt (fin a) (fin b) ↔ a < b := by
  simp [lt, isNaN, cls, num]

theorem mul_fin_fin (a b : ℚ) (h : a * b ≠ 0) : mul (fin a) (fin b) = ofRat (a * b) := by
  simp [mul, isNaN, cls, num, h]

theorem div_fin_fin (a b : ℚ) (ha : a ≠ 0) (hb : b ≠ 0) :
    div (fin a) (fin b) = ofRat (a / b) := by
  simp [div, isNaN, cls, num, ha, hb]

theorem fmin_fin_fin (a b : ℚ) : fmin (fin a) (fin b) = fin (if b < a then b else a) := by
  unfold fmin
  by_cases h : b < a
  · rw [if_pos ((lt_fin_fin b a).2 h), if_pos h]
  · rw [if_neg (fun hc => h ((lt_fin_fin b a).1 hc)), if_neg h]

theorem toInt_intCast (z : Int) (h1 : -2147483648 ≤ z) (h2 : z ≤ 2147483647) :
    toInt (fin (z : ℚ)) = some z := by
  unfold toInt
  simp only [Rat.intCast_num, Rat.intCast_den, Nat.cast_one]
  have : Int.tdiv z 1 = z := Int.tdiv_one z
  rw [this, if_pos ⟨h1, h2⟩]

theorem toInt_some_bounds (a : F32) (z : Int) (h : toInt a = some z) :
    -2147483648 ≤ z ∧ z ≤ 2147483647 := by
  cases a with
  | fin q =>
    unfold toInt at h
    simp only [] at h
    split at h
    · rename_i hc
      have := Option.some.inj h
      rw [← this]
      exact hc
    · exact absurd h (by simp)
  | nzero =>
    have := Option.some.inj h
    rw [← this]
    decide
  | pinf => simp [toInt] at h
  | ninf => simp [toInt] at h
  | nan => simp [toInt] at h

/-- An `int` of the 32-bit range, or a difference of two, converts to a
finite value. -/
theorem ofInt_isFinite (n : Int) (h1 : -(2 : Int) ^ 34 ≤ n) (h2 : n ≤ (2 : Int) ^ 34) :
    (ofInt n).isFinite = true := by
  have e34 : pow2 34 = (((2 : Int) ^ 34 : Int) : ℚ) := by
    rw [show (34 : Int) = ((34 : Nat) : Int) from rfl, pow2_intCast_eq]
  have hq1 : -pow2 34 ≤ (n : ℚ) := by rw [e34]; exact_mod_cast h1
  have hq2 : (n : ℚ) ≤ pow2 34 := by rw [e34]; exact_mod_cast h2
  have ex := pow2_exact 34 (by decide)
  have u1 : rne (n : ℚ) ≤ pow2 34 := by
    have := rne_mono _ _ hq2
    rwa [ex] at this
  have u2 : -pow2 34 ≤ rne (n : ℚ) := by
    have := rne_mono _ _ hq1
    rwa [rne_neg, ex] at this
  have hlt : pow2 34 < pow2 128 := pow2_lt (by decide)
  unfold ofInt
  rcases ofRat_spec (n : ℚ) with ⟨c, _⟩ | ⟨c, _⟩ | ⟨_, _, c, _⟩
  · linarith
  · linarith
  · exact c

end F32

/-! ## Lemmas on the suppression filter -/

theorem areas_getD (objects : List Object) (i : Nat) (hi : i < objects.length) :
    (objects.map fun o => o.rect.area).getD i (F32.fin 0) = (objAt objects i).rect.area := by
  simp [objAt, List.getD, List.getElem?_map, List.getElem?_eq_getElem hi]

theorem zero_rect_area :
    (⟨F32.fin 0, F32.fin 0, F32.fin 0, F32.fin 0⟩ : Rect).area = F32.fin 0 := by
  decide!

/-- The area the filter obtains from `a.rect & b.rect` is the overlapping area
of the two boxes. -/
theorem intersection_area_eq (a b : Object) :
    intersection_area a b = overlapArea a.rect b.rect := by
  unfold intersection_area Rect.inter overlapArea overlapLength
  simp only []
  split
  · exact zero_rect_area
  · rfl

/-- The value `iou` of lines 79-81 for the pair `(i, picked[j])` is the
intersection over union of the two boxes. -/
theorem nms_iou_eq (objects : List Object) (i pj : Nat) (hi : i < objects.length)
    (hpj : pj < objects.length) :
    (if F32.lt (F32.fin 0)
        (F32.sub (F32.add ((objects.map fun o => o.rect.area).getD i (F32.fin 0))
          ((objects.map fun o => o.rect.area).getD pj (F32.fin 0)))
          (intersection_area (objAt objects i) (objAt objects pj)))
      then F32.div (intersection_area (objAt objects i) (objAt objects pj))
        (F32.sub (F32.add ((objects.map fun o => o.rect.area).getD i (F32.fin 0))
          ((objects.map fun o => o.rect.area).getD pj (F32.fin 0)))
          (intersection_area (objAt objects i) (objAt objects pj)))
      else F32.fin 0) = IoU (objAt objects i) (objAt objects pj) := by
  rw [areas_getD objects i hi, areas_getD objects pj hpj, intersection_area_eq]
  rfl

theorem nms_keep_iff (objects : List Object) (thr : F32) (agnostic : Bool) (i : Nat)
    (hi : i < objects.length) (picked : List Nat)
    (hp : ∀ j ∈ picked, j < objects.length) :
    nms_keep objects (objects.map fun o => o.rect.area) thr agnostic i picked = true ↔
      ∀ j ∈ picked, ¬ Suppresses thr agnostic (objAt objects i) (objAt objects j) := by
  induction picked with
  | nil => simp [nms_keep]
  | cons pj rest ih =>
    have hpj : pj < objects.length := hp pj (List.mem_cons_self _ _)
    have hrest : ∀ j ∈ rest, j < objects.length := fun j hj =>
      hp j (List.mem_cons_of_mem _ hj)
    have ih2 := ih hrest
    simp only [nms_keep, nms_iou_eq objects i pj hi hpj]
    simp only [List.mem_cons, forall_eq_or_imp]
    by_cases hc : (!agnostic && (objAt objects i).label != (objAt objects pj).label) = true
    · rw [if_pos hc, ih2]
      have hns : ¬ Suppresses thr agnostic (objAt objects i) (objAt objects pj) := by
        rintro ⟨hcmp, _⟩
        rcases hcmp with h | h
        · simp [h] at hc
        · simp [h] at hc
      simp [hns]
    · rw [if_neg hc]
      have hcmp : Comparable agnostic (objAt objects i) (objAt objects pj) := by
        unfold Comparable
        cases agnostic with
        | true => exact Or.inl rfl
        | false =>
          right
          simpa using hc
      by_cases hs : F32.lt thr (IoU (objAt objects i) (objAt objects pj))
      · rw [if_pos hs]
        have : Suppresses thr agnostic (objAt objects i) (objAt objects pj) := ⟨hcmp, hs⟩
        simp [this]
      · rw [if_neg hs, ih2]
        have : ¬ Suppresses thr agnostic (objAt objects i) (objAt objects pj) :=
          fun h => hs h.2
        simp [this]

theorem nms_upto_succ (objects : List Object) (thr : F32) (agnostic : Bool) (m : Nat) :
    nms_upto objects thr agnostic (m + 1) =
      nms_step objects (objects.map fun o => o.rect.area) thr agnostic
        (nms_upto objects thr agnostic m) m := by
  simp [nms_upto, List.range_succ, List.foldl_append]

theorem nms_upto_zero (objects : List Object) (thr : F32) (agnostic : Bool) :
    nms_upto objects thr agnostic 0 = [] := by
  simp [nms_upto]

theorem nms_upto_lt (objects : List Object) (thr : F32) (agnostic : Bool) (m : Nat) :
    ∀ j ∈ nms_upto objects thr agnostic m, j < m := by
  induction m with
  | zero => simp [nms_upto_zero]
  | succ m ih =>
    intro j hj
    rw [nms_upto_succ] at hj
    unfold nms_step at hj
    split at hj
    · rcases List.mem_append.1 hj with h | h
      · exact Nat.lt_succ_of_lt (ih j h)
      · simp at h; omega
    · exact Nat.lt_succ_of_lt (ih j hj)

theorem nms_upto_pairwise (objects : List Object) (thr : F32) (agnostic : Bool) (m : Nat) :
    (nms_upto objects thr agnostic m).Pairwise (fun a b => a < b) := by
  induction m with
  | zero => simp [nms_upto_zero]
  | succ m ih =>
    rw [nms_upto_succ]
    unfold nms_step
    split
    · rw [List.pairwise_append]
      refine ⟨ih, List.pairwise_singleton _ _, ?_⟩
      intro a ha b hb
      have hbm : b = m := by simpa using hb
      rw [hbm]
      exact nms_upto_lt objects thr agnostic m a ha
    · exact ih

theorem mem_nms_upto_succ (objects : List Object) (thr : F32) (agnostic : Bool)
    (m j : Nat) :
    j ∈ nms_upto objects thr agnostic (m + 1) ↔
      j ∈ nms_upto objects thr agnostic m ∨
        (j = m ∧ nms_keep objects (objects.map fun o => o.rect.area) thr agnostic m
          (nms_upto objects thr agnostic m) = true) := by
  rw [nms_upto_succ]
  unfold nms_step
  split
  · rename_i h
    simp [h]
  · rename_i h
    simp [h]

theorem mem_nms_upto_of_le (objects : List Object) (thr : F32) (agnostic : Bool)
    (m k j : Nat) :
    j ∈ nms_upto objects thr agnostic (m + k) ↔
      (j ∈ nms_upto objects thr agnostic m ∨
        (m ≤ j ∧ j ∈ nms_upto objects thr agnostic (m + k))) := by
  constructor
  · intro h
    by_cases hm : m ≤ j
    · exact Or.inr ⟨hm, h⟩
    · left
      induction k with
      | zero => simpa using h
      | succ k ih =>
        rw [← Nat.add_assoc, mem_nms_upto_succ] at h
        rcases h with h | ⟨h, _⟩
        · exact ih h
        · omega
  · rintro (h | ⟨_, h⟩)
    · induction k with
      | zero => simpa using h
      | succ k ih =>
        rw [← Nat.add_assoc, mem_nms_upto_succ]
        exact Or.inl ih
    · exact h

/-- The entries of the final `picked` below `i` are the `picked` vector at the
time candidate `i` is examined. -/
theorem mem_nms_upto_iff (objects : List Object) (thr : F32) (agnostic : Bool)
    (i n j : Nat) (hin : i ≤ n) :
    j ∈ nms_upto objects thr agnostic i ↔
      (j ∈ nms_upto objects thr agnostic n ∧ j < i) := by
  obtain ⟨k, rfl⟩ := Nat.exists_eq_add_of_le hin
  constructor
  · intro h
    exact ⟨(mem_nms_upto_of_le objects thr agnostic i k j).2 (Or.inl h),
      nms_upto_lt objects thr agnostic i j h⟩
  · rintro ⟨h, hlt⟩
    rcases (mem_nms_upto_of_le objects thr agnostic i k j).1 h with h | ⟨hle, _⟩
    · exact h
    · omega

/-- Index `i` ends up in `picked` exactly when the inner loop kept it. -/
theorem mem_nms_iff_keep (objects : List Object) (thr : F32) (agnostic : Bool)
    (i n : Nat) (hin : i < n) :
    i ∈ nms_upto objects thr agnostic n ↔
      nms_keep objects (objects.map fun o => o.rect.area) thr agnostic i
        (nms_upto objects thr agnostic i) = true := by
  have h1 := mem_nms_upto_iff objects thr agnostic (i + 1) n i hin
  have h2 := mem_nms_upto_succ objects thr agnostic i i
  have h3 : i ∉ nms_upto objects thr agnostic i := fun h =>
    Nat.lt_irrefl _ (nms_upto_lt objects thr agnostic i i h)
  constructor
  · intro h
    rcases h2.1 (h1.2 ⟨h, Nat.lt_succ_self i⟩) with h | ⟨_, h⟩
    · exact absurd h h3
    · exact h
  · intro h
    exact (h1.1 (h2.2 (Or.inr ⟨rfl, h⟩))).1

/-- The greedy characterisation of the kept indices. -/
theorem mem_nms_iff (objects : List Object) (thr : F32) (agnostic : Bool)
    (i : Nat) (hi : i < objects.length) :
    i ∈ nms_sorted_bboxes objects thr agnostic ↔
      ¬ ∃ j ∈ nms_sorted_bboxes objects thr agnostic, j < i ∧
          Suppresses thr agnostic (objAt objects i) (objAt objects j) := by
  unfold nms_sorted_bboxes
  rw [mem_nms_iff_keep objects thr agnostic i objects.length hi,
    nms_keep_iff objects thr agnostic i hi _
      (fun j hj => Nat.lt_trans (nms_upto_lt objects thr agnostic i j hj) hi)]
  constructor
  · rintro h ⟨j, hj, hlt, hs⟩
    exact h j ((mem_nms_upto_iff objects thr agnostic i objects.length j
      (Nat.le_of_lt hi)).2 ⟨hj, hlt⟩) hs
  · intro h j hj hs
    have := (mem_nms_upto_iff objects thr agnostic i objects.length j
      (Nat.le_of_lt hi)).1 hj
    exact h ⟨j, this.1, this.2, hs⟩

/-- **C2.** For every list, threshold and agnostic flag, the indices kept by
`nms_sorted_bboxes` lie below the list length and are characterised greedily:
index `i` is kept if and only if no kept index `j < i` is comparable with it
(agnostic mode, or equal labels) with `IoU(objects[i], objects[j])` above the
threshold, where `IoU` is the single-precision intersection over union of the
two boxes. Consequently two kept comparable boxes never have an IoU above the
threshold, and every rejected box has an earlier kept comparable box with IoU
above the threshold. -/
theorem nms_sorted_bboxes_greedy (objects : List Object) (nms_threshold : F32)
    (agnostic : Bool) :
    (∀ i ∈ nms_sorted_bboxes objects nms_threshold agnostic, i < objects.length) ∧
    (∀ i, i < objects.length →
      (i ∈ nms_sorted_bboxes objects nms_threshold agnostic ↔
        ¬ ∃ j ∈ nms_sorted_bboxes objects nms_threshold agnostic, j < i ∧
            Comparable agnostic (objAt objects i) (objAt objects j) ∧
            F32.lt nms_threshold (IoU (objAt objects i) (objAt objects j)))) ∧
    (∀ i ∈ nms_sorted_bboxes objects nms_threshold agnostic,
      ∀ j ∈ nms_sorted_bboxes objects nms_threshold agnostic, j < i →
        Comparable agnostic (objAt objects i) (objAt objects j) →
        ¬ F32.lt nms_threshold (IoU (objAt objects i) (objAt objects j))) ∧
    (∀ i, i < objects.length → i ∉ nms_sorted_bboxes objects nms_threshold agnostic →
      ∃ j ∈ nms_sorted_bboxes objects nms_threshold agnostic, j < i ∧
        Comparable agnostic (objAt objects i) (objAt objects j) ∧
        F32.lt nms_threshold (IoU (objAt objects i) (objAt objects j))) := by
  have hlt : ∀ i ∈ nms_sorted_bboxes objects nms_threshold agnostic,
      i < objects.length := nms_upto_lt objects nms_threshold agnostic _
  refine ⟨hlt, ?_, ?_, ?_⟩
  · intro i hi
    exact mem_nms_iff objects nms_threshold agnostic i hi
  · intro i hi j hj hji hc hgt
    exact (mem_nms_iff objects nms_threshold agnostic i (hlt i hi)).1 hi
      ⟨j, hj, hji, hc, hgt⟩
  · intro i hi hni
    by_contra hne
    exact hni ((mem_nms_iff objects nms_threshold agnostic i hi).2 hne)

theorem nms_kept_not_suppresses (objects : List Object) (thr : F32) (agnostic : Bool)
    (i j : Nat) (hi : i ∈ nms_sorted_bboxes objects thr agnostic)
    (hj : j ∈ nms_sorted_bboxes objects thr agnostic) (hji : j < i) :
    ¬ Suppresses thr agnostic (objAt objects i) (objAt objects j) := by
  intro hs
  have hlen : i < objects.length := nms_upto_lt objects thr agnostic _ i hi
  exact (mem_nms_iff objects thr agnostic i hlen).1 hi ⟨j, hj, hji, hs⟩

theorem map_objAt_eq_map_fin (objects : List Object) (l : List Nat)
    (H : ∀ a ∈ l, a < objects.length) :
    l.map (objAt objects) =
      (l.pmap (fun i h => (⟨i, h⟩ : Fin objects.length)) H).map (fun x => objects[x]) := by
  induction l with
  | nil => rfl
  | cons a l ih =>
    have ha : a < objects.length := H a (List.mem_cons_self _ _)
    have hl : ∀ b ∈ l, b < objects.length := fun b hb => H b (List.mem_cons_of_mem _ hb)
    simp only [List.map_cons, List.pmap, ih hl]
    congr 1
    simp [objAt, List.getD, List.getElem?_eq_getElem ha]

theorem map_objAt_sublist (objects : List Object) (l : List Nat)
    (H : ∀ a ∈ l, a < objects.length) (hp : l.Pairwise (fun a b => a < b)) :
    (l.map (objAt objects)).Sublist objects := by
  rw [map_objAt_eq_map_fin objects l H]
  apply List.map_getElem_sublist
  exact hp.pmap H (fun _ _ _ _ h => h)

/-- **C7.** For every input list the indices returned by `nms_sorted_bboxes`
are strictly increasing and all lie in `[0, n)`; the kept detections are a
subsequence of the input in the same relative order; and when the input is in
non-increasing confidence order, so is the list of kept detections. -/
theorem nms_sorted_bboxes_order (objects : List Object) (nms_threshold : F32)
    (agnostic : Bool) :
    (nms_sorted_bboxes objects nms_threshold agnostic).Pairwise (fun a b => a < b) ∧
    (∀ i ∈ nms_sorted_bboxes objects nms_threshold agnostic, i < objects.length) ∧
    (nms_kept objects nms_threshold agnostic).Sublist objects ∧
    (objects.Pairwise (fun a b => a.prob ≥ b.prob) →
      (nms_kept objects nms_threshold agnostic).Pairwise (fun a b => a.prob ≥ b.prob)) := by
  have hp := nms_upto_pairwise objects nms_threshold agnostic objects.length
  have hlt := nms_upto_lt objects nms_threshold agnostic objects.length
  have hsub : (nms_kept objects nms_threshold agnostic).Sublist objects :=
    map_objAt_sublist objects _ hlt hp
  exact ⟨hp, hlt, hsub, fun h => h.sublist hsub⟩

theorem objAt_map (objects : List Object) (l : List Nat) (m : Nat) (hm : m < l.length) :
    objAt (l.map (objAt objects)) m = objAt objects (l.getD m 0) := by
  simp [objAt, List.getD, List.getElem?_map, List.getElem?_eq_getElem hm]

theorem getD_mem (l : List Nat) (m : Nat) (hm : m < l.length) : l.getD m 0 ∈ l := by
  simp [List.getD, List.getElem?_eq_getElem hm]

theorem getD_lt_of_pairwise (l : List Nat) (hp : l.Pairwise (fun a b => a < b))
    (j m : Nat) (hjm : j < m) (hm : m < l.length) : l.getD j 0 < l.getD m 0 := by
  have hj : j < l.length := Nat.lt_trans hjm hm
  have := List.pairwise_iff_getElem.1 hp j m hj hm hjm
  simpa [List.getD, List.getElem?_eq_getElem hm, List.getElem?_eq_getElem hj] using this

theorem nms_upto_kept (objects : List Object) (thr : F32) (agnostic : Bool) (m : Nat)
    (hm : m ≤ (nms_kept objects thr agnostic).length) :
    nms_upto (nms_kept objects thr agnostic) thr agnostic m = List.range m := by
  induction m with
  | zero => simp [nms_upto_zero]
  | succ m ih =>
    have hm1 : m < (nms_kept objects thr agnostic).length := hm
    have hmP : m < (nms_sorted_bboxes objects thr agnostic).length := by
      simpa [nms_kept] using hm1
    rw [nms_upto_succ, ih (Nat.le_of_lt hm1), List.range_succ]
    unfold nms_step
    have hkeep : nms_keep (nms_kept objects thr agnostic)
        ((nms_kept objects thr agnostic).map fun o => o.rect.area) thr agnostic m
        (List.range m) = true := by
      rw [nms_keep_iff _ thr agnostic m hm1 _
        (fun j hj => Nat.lt_trans (List.mem_range.1 hj) hm1)]
      intro j hj
      have hjm : j < m := List.mem_range.1 hj
      have hjP : j < (nms_sorted_bboxes objects thr agnostic).length :=
        Nat.lt_trans hjm hmP
      unfold nms_kept
      rw [objAt_map objects _ m hmP, objAt_map objects _ j hjP]
      exact nms_kept_not_suppresses objects thr agnostic _ _
        (getD_mem _ m hmP) (getD_mem _ j hjP)
        (getD_lt_of_pairwise _ (nms_upto_pairwise objects thr agnostic _) j m hjm hmP)
    rw [if_pos hkeep]

theorem map_objAt_range (l : List Object) :
    (List.range l.length).map (objAt l) = l := by
  apply List.ext_getElem
  · simp
  · intro n h1 h2
    have hn : n < l.length := by simpa using h1
    simp [objAt, List.getD, List.getElem?_eq_getElem hn]

/-- **C8.** Suppression is idempotent: for every list, threshold and agnostic
flag, running `nms_sorted_bboxes` on the detections it kept (same threshold,
same flag) picks every index of that list, so the kept list is returned
unchanged. -/
theorem nms_sorted_bboxes_idempotent (objects : List Object) (nms_threshold : F32)
    (agnostic : Bool) :
    nms_sorted_bboxes (nms_kept objects nms_threshold agnostic) nms_threshold agnostic =
        List.range (nms_kept objects nms_threshold agnostic).length ∧
    nms_kept (nms_kept objects nms_threshold agnostic) nms_threshold agnostic =
        nms_kept objects nms_threshold agnostic := by
  have h : nms_sorted_bboxes (nms_kept objects nms_threshold agnostic) nms_threshold
      agnostic = List.range (nms_kept objects nms_threshold agnostic).length :=
    nms_upto_kept objects nms_threshold agnostic _ (Nat.le_refl _)
  refine ⟨h, ?_⟩
  show (nms_sorted_bboxes (nms_kept objects nms_threshold agnostic) nms_threshold
      agnostic).map (objAt (nms_kept objects nms_threshold agnostic)) = _
  rw [h, map_objAt_range]

theorem nms_two (a b : Object) (thr : F32) (agnostic : Bool) :
    nms_sorted_bboxes [a, b] thr agnostic =
      if Suppresses thr agnostic b a then [0] else [0, 1] := by
  have h0 : nms_upto [a, b] thr agnostic 1 = [0] := by
    rw [nms_upto_succ, nms_upto_zero]
    simp [nms_step, nms_keep]
  have hk := nms_keep_iff [a, b] thr agnostic 1 (by simp) [0] (by simp)
  show nms_upto [a, b] thr agnostic 2 = _
  rw [nms_upto_succ, h0]
  unfold nms_step
  by_cases hs : Suppresses thr agnostic b a
  · have : ¬ (nms_keep [a, b] ([a, b].map fun o => o.rect.area) thr agnostic 1 [0]
        = true) := by
      rw [hk]
      simpa [objAt] using hs
    rw [if_neg this, if_pos hs]
  · have : nms_keep [a, b] ([a, b].map fun o => o.rect.area) thr agnostic 1 [0]
        = true := by
      rw [hk]
      simpa [objAt] using hs
    rw [if_pos this, if_neg hs]
    rfl

/-- **C9.** For every two-element input whose boxes have different labels and
whose single-precision IoU (candidate against accepted box, as the filter
computes it) is above the threshold, `nms_sorted_bboxes` keeps both indices
when `agnostic = false` and only the first one when `agnostic = true`. More
generally, with `agnostic = false` a candidate is kept whenever no earlier kept
box *of its own label* has IoU above the threshold with it, whatever the boxes
of other labels are, and every rejected candidate is rejected by a kept box of
its own label. -/
theorem nms_sorted_bboxes_agnostic (a b : Object) (nms_threshold : F32)
    (hlabel : a.label ≠ b.label) (hiou : F32.lt nms_threshold (IoU b a)) :
    nms_sorted_bboxes [a, b] nms_threshold false = [0, 1] ∧
    nms_sorted_bboxes [a, b] nms_threshold true = [0] ∧
    (∀ (objects : List Object) (thr : F32) (i : Nat), i < objects.length →
      ((∀ j ∈ nms_sorted_bboxes objects thr false, j < i →
          (objAt objects j).label = (objAt objects i).label →
          ¬ F32.lt thr (IoU (objAt objects i) (objAt objects j))) →
        i ∈ nms_sorted_bboxes objects thr false) ∧
      (i ∉ nms_sorted_bboxes objects thr false →
        ∃ j ∈ nms_sorted_bboxes objects thr false, j < i ∧
          (objAt objects j).label = (objAt objects i).label ∧
          F32.lt thr (IoU (objAt objects i) (objAt objects j)))) := by
  refine ⟨?_, ?_, ?_⟩
  · rw [nms_two, if_neg]
    rintro ⟨hc, _⟩
    rcases hc with h | h
    · exact absurd h (by decide)
    · exact hlabel h.symm
  · rw [nms_two, if_pos]
    exact ⟨Or.inl rfl, hiou⟩
  · intro objects thr i hi
    have key := mem_nms_iff objects thr false i hi
    constructor
    · intro h
      apply key.2
      rintro ⟨j, hj, hji, hc, hgt⟩
      rcases hc with hc | hc
      · exact absurd hc (by decide)
      · exact absurd hgt (h j hj hji hc.symm)
    · intro hni
      by_contra hne
      apply hni
      apply key.2
      rintro ⟨j, hj, hji, hc, hgt⟩
      rcases hc with hc | hc
      · exact absurd hc (by decide)
      · exact hne ⟨j, hj, hji, hc.symm, hgt⟩


/-! ## Lemmas on the proposal decoder -/

theorem class_scan_succ (pred : Mat) (n i : Nat) :
    class_scan pred (n + 1) i = class_scan_step pred i (class_scan pred n i) n := by
  simp [class_scan, List.range_succ, List.foldl_append]

/-- Invariant of the class loop after `n` classes: either no score was
positive and the state is still `(-1, 0)`, or the state holds the first index
of the largest score seen, which is positive. -/
theorem class_scan_inv (pred : Mat) (i n : Nat) :
    ((class_scan pred n i).1 = -1 ∧ (class_scan pred n i).2 = 0 ∧
        ∀ k, k < n → pred.row (4 + k) i ≤ 0) ∨
    (∃ c : Nat, c < n ∧ (class_scan pred n i).1 = (c : Int) ∧
        (class_scan pred n i).2 = pred.row (4 + c) i ∧ 0 < pred.row (4 + c) i ∧
        (∀ k, k < n → pred.row (4 + k) i ≤ pred.row (4 + c) i) ∧
        (∀ k, k < c → pred.row (4 + k) i < pred.row (4 + c) i)) := by
  induction n with
  | zero =>
    left
    simp [class_scan]
  | succ n ih =>
    rw [class_scan_succ]
    unfold class_scan_step
    simp only []
    rcases ih with ⟨h1, h2, h3⟩ | ⟨c, hc, h1, h2, hpos, h3, h4⟩
    · by_cases hgt : pred.row (4 + n) i > (class_scan pred n i).2
      · rw [if_pos hgt]
        right
        rw [h2] at hgt
        refine ⟨n, Nat.lt_succ_self n, rfl, rfl, hgt, ?_, ?_⟩
        · intro k hk
          rcases Nat.lt_succ_iff_lt_or_eq.1 hk with h | h
          · exact le_trans (h3 k h) (le_of_lt hgt)
          · rw [h]
        · intro k hk
          exact lt_of_le_of_lt (h3 k hk) hgt
      · rw [if_neg hgt]
        left
        rw [h2] at hgt
        refine ⟨h1, h2, ?_⟩
        intro k hk
        rcases Nat.lt_succ_iff_lt_or_eq.1 hk with h | h
        · exact h3 k h
        · rw [h]; exact not_lt.1 hgt
    · by_cases hgt : pred.row (4 + n) i > (class_scan pred n i).2
      · rw [if_pos hgt]
        right
        rw [h2] at hgt
        refine ⟨n, Nat.lt_succ_self n, rfl, rfl, lt_trans hpos hgt, ?_, ?_⟩
        · intro k hk
          rcases Nat.lt_succ_iff_lt_or_eq.1 hk with h | h
          · exact le_trans (h3 k h) (le_of_lt hgt)
          · rw [h]
        · intro k hk
          exact lt_of_le_of_lt (h3 k hk) hgt
      · rw [if_neg hgt]
        right
        rw [h2] at hgt
        refine ⟨c, Nat.lt_succ_of_lt hc, h1, h2, hpos, ?_, h4⟩
        intro k hk
        rcases Nat.lt_succ_iff_lt_or_eq.1 hk with h | h
        · exact h3 k h
        · rw [h]; exact not_lt.1 hgt

theorem proposals_step_fst (pred : Mat) (t : ℚ) (num_class : Nat)
    (st : List Object × ℚ) (i : Nat) :
    (proposals_step pred t num_class st i).1 =
      st.1 ++ (proposal_at pred t num_class i).toList := by
  unfold proposals_step
  cases proposal_at pred t num_class i <;> simp

theorem proposals_fold_fst (pred : Mat) (t : ℚ) (num_class n : Nat) :
    ((List.range n).foldl (proposals_step pred t num_class) ([], 0)).1 =
      (List.range n).filterMap (proposal_at pred t num_class) := by
  induction n with
  | zero => rfl
  | succ n ih =>
    rw [List.range_succ, List.foldl_append, List.filterMap_append]
    simp only [List.foldl_cons, List.foldl_nil, List.filterMap_cons, List.filterMap_nil]
    rw [proposals_step_fst, ih]
    cases proposal_at pred t num_class n <;> simp

theorem generate_eq_filterMap (pred : Mat) (t : ℚ) (hd : pred.dims = 2)
    (hh : pred.h = 84) :
    generate_proposals_yolo26 pred t =
      (List.range pred.w.toNat).filterMap (proposal_at pred t 80) := by
  unfold generate_proposals_yolo26 generate_proposals_full
  simp only [hd, hh, ne_eq, not_true_eq_false, if_false]
  exact proposals_fold_fst pred t 80 _

theorem forall₂_filter_filterMap {α β : Type} (R : α → β → Prop) (p : α → Bool)
    (f : α → Option β) (l : List α)
    (hpos : ∀ a ∈ l, p a = true → ∃ b, f a = some b ∧ R a b)
    (hneg : ∀ a ∈ l, p a = false → f a = none) :
    List.Forall₂ R (l.filter p) (l.filterMap f) := by
  induction l with
  | nil => exact List.Forall₂.nil
  | cons a l ih =>
    have ih2 := ih (fun x hx => hpos x (List.mem_cons_of_mem _ hx))
      (fun x hx => hneg x (List.mem_cons_of_mem _ hx))
    cases hp : p a with
    | true =>
      obtain ⟨b, hb, hR⟩ := hpos a (List.mem_cons_self _ _) hp
      rw [List.filter_cons_of_pos hp, List.filterMap_cons_some hb]
      exact List.Forall₂.cons hR ih2
    | false =>
      have hb := hneg a (List.mem_cons_self _ _) hp
      rw [List.filter_cons_of_neg (by simp [hp]), List.filterMap_cons_none hb]
      exact ih2

theorem proposal_at_eq (pred : Mat) (t : ℚ) (i : Nat) :
    proposal_at pred t 80 i =
      if (class_scan pred 80 i).2 < t then none
      else some ⟨decodedBox pred i, (class_scan pred 80 i).1, (class_scan pred 80 i).2⟩ :=
  rfl

theorem proposal_at_of_passes (pred : Mat) (t : ℚ) (ht : 0 < t) (i : Nat)
    (hp : ColPasses pred t i) :
    ∃ d, proposal_at pred t 80 i = some d ∧
      d.rect = decodedBox pred i ∧
      IsColMax pred i d.prob ∧ IsFirstArgmax pred i d.label := by
  obtain ⟨k, hk, hkt⟩ := hp
  have hinv := class_scan_inv pred i 80
  rw [proposal_at_eq]
  generalize class_scan pred 80 i = st at hinv
  obtain ⟨l, s⟩ := st
  simp only at hinv
  rcases hinv with ⟨_, _, h3⟩ | ⟨c, hc, h1, h2, _, h3, h4⟩
  · exact absurd (lt_of_lt_of_le ht hkt) (not_lt.2 (h3 k hk))
  · have hnot : ¬ s < t := by
      rw [h2]
      exact not_lt.2 (le_trans hkt (h3 k hk))
    rw [if_neg hnot]
    refine ⟨_, rfl, rfl, ?_, ?_⟩
    · exact ⟨⟨c, hc, h2.symm⟩, fun k hk => by rw [h2]; exact h3 k hk⟩
    · exact ⟨c, hc, h1, h3, h4⟩

theorem proposal_at_of_not_passes (pred : Mat) (t : ℚ) (ht : 0 < t) (i : Nat)
    (hp : ¬ ColPasses pred t i) : proposal_at pred t 80 i = none := by
  have hinv := class_scan_inv pred i 80
  rw [proposal_at_eq]
  generalize class_scan pred 80 i = st at hinv
  obtain ⟨l, s⟩ := st
  simp only at hinv
  have hlt : s < t := by
    rcases hinv with ⟨_, h2, _⟩ | ⟨c, hc, _, h2, _, _, _⟩
    · rw [h2]; exact ht
    · rw [h2]
      by_contra hge
      exact hp ⟨c, hc, not_lt.1 hge⟩
  rw [if_pos hlt]

/-- **C1 (amended).** For every well-shaped tensor (2-D, 84 feature rows) and
every threshold `t > 0`, `generate_proposals_yolo26` returns, in increasing
column order, exactly one detection for each column whose maximum class score
is at least `t` and none for any other column; the detection of column `i` has
the box `(cx - w/2, cy - h/2, w, h)` of rows 0..3 with the half extent and
the difference rounded to single precision, the maximum class score as
confidence and the lowest class index attaining it as label. -/
theorem generate_proposals_yolo26_spec (pred : Mat) (t : ℚ) (hd : pred.dims = 2)
    (hh : pred.h = 84) (ht : 0 < t) :
    DecodeSpec pred t (generate_proposals_yolo26 pred t) := by
  unfold DecodeSpec
  rw [generate_eq_filterMap pred t hd hh]
  apply forall₂_filter_filterMap
  · intro i _ hp
    exact proposal_at_of_passes pred t ht i (of_decide_eq_true hp)
  · intro i _ hp
    exact proposal_at_of_not_passes pred t ht i (of_decide_eq_false hp)

theorem generate_zeroPred :
    generate_proposals_yolo26 zeroPred 0 =
      [⟨⟨F32.fin 0, F32.fin 0, F32.fin 0, F32.fin 0⟩, -1, 0⟩] := by
  decide!

/-- **C1 (as stated) fails.** On the well-shaped one-column tensor whose
entries are all zero and threshold `0`, the decoder emits a detection with
label `-1`, which is not a class index attaining the column maximum: the
decoding contract does not hold for every threshold. -/
theorem generate_proposals_yolo26_spec_fails :
    zeroPred.dims = 2 ∧ zeroPred.h = 84 ∧
      ¬ DecodeSpec zeroPred 0 (generate_proposals_yolo26 zeroPred 0) := by
  refine ⟨rfl, rfl, ?_⟩
  rw [generate_zeroPred]
  unfold DecodeSpec
  intro h
  obtain ⟨i, _, hR, _, _⟩ := List.forall₂_cons_right_iff.1 h
  obtain ⟨_, _, c, _, hc, _⟩ := hR
  simp only at hc
  omega

/-- **C5 (amended).** For every tensor and every threshold `t > 0`, each
detection emitted by `generate_proposals_yolo26` has a class index in
`[0, numClasses)` with `numClasses = num_feat - 4`; in particular it is never
`-1`. -/
theorem generate_proposals_yolo26_label_range (pred : Mat) (t : ℚ) (ht : 0 < t)
    (d : Object) (hmem : d ∈ generate_proposals_yolo26 pred t) :
    0 ≤ d.label ∧ d.label < pred.h - 4 := by
  by_cases hd : pred.dims = 2
  · by_cases hh : pred.h = 84
    · rw [generate_eq_filterMap pred t hd hh] at hmem
      obtain ⟨i, _, hi⟩ := List.mem_filterMap.1 hmem
      by_cases hp : ColPasses pred t i
      · obtain ⟨d2, hd2, _, _, c, hc, hl, _⟩ := proposal_at_of_passes pred t ht i hp
        rw [hd2] at hi
        have hdd : d2 = d := Option.some.inj hi
        rw [← hdd, hl, hh]
        omega
      · rw [proposal_at_of_not_passes pred t ht i hp] at hi
        exact absurd hi (by simp)
    · simp [generate_proposals_yolo26, generate_proposals_full, hd, hh] at hmem
  · simp [generate_proposals_yolo26, generate_proposals_full, hd] at hmem

/-- **C5 (as stated) fails.** The all-zero tensor has every class score in
`[0, 1]` and the threshold `0` lies in `[0, 1]`, yet the emitted detection
carries the class index `-1`. -/
theorem generate_proposals_yolo26_label_minus_one :
    (∀ k, k < 80 → 0 ≤ zeroPred.row (4 + k) 0 ∧ zeroPred.row (4 + k) 0 ≤ 1) ∧
    (0 : ℚ) ≤ 0 ∧ (0 : ℚ) ≤ 1 ∧
    ∃ d ∈ generate_proposals_yolo26 zeroPred 0, d.label = -1 := by
  refine ⟨?_, le_refl _, zero_le_one, ?_⟩
  · intro k hk
    have hz : zeroPred.row (4 + k) 0 = 0 := by
      simp only [Mat.row, zeroPred, List.getD_eq_getElem?_getD, List.getElem?_replicate]
      split <;> rfl
    rw [hz]
    exact ⟨le_refl _, zero_le_one⟩
  rw [generate_zeroPred]
  exact ⟨_, List.mem_singleton.2 rfl, rfl⟩


/-! ## Lemmas on the letterbox parameters and the coordinate mapping -/

/-- For positive `int` sizes the letterbox scale is a positive finite value,
at most each of the two rounded quotients. -/
theorem letterbox_scale_spec (img_w img_h dst_size : Int) (hw : 1 ≤ img_w)
    (hw2 : img_w < (2 : Int) ^ 31) (hh : 1 ≤ img_h) (hh2 : img_h < (2 : Int) ^ 31)
    (hs : 1 ≤ dst_size) (hs2 : dst_size < (2 : Int) ^ 31) :
    ∃ w h S s : ℚ, F32.ofInt img_w = F32.fin w ∧ F32.ofInt img_h = F32.fin h ∧
      F32.ofInt dst_size = F32.fin S ∧ letterbox_scale img_w img_h dst_size = F32.fin s ∧
      1 ≤ w ∧ w ≤ F32.pow2 31 ∧ 1 ≤ h ∧ h ≤ F32.pow2 31 ∧ 1 ≤ S ∧ S ≤ F32.pow2 31 ∧
      0 < s ∧ s ≤ F32.rne (S / w) ∧ s ≤ F32.rne (S / h) := by
  obtain ⟨w, ew, w1, w2, _⟩ := F32.ofInt_pos img_w hw hw2
  obtain ⟨h, eh, h1, h2, _⟩ := F32.ofInt_pos img_h hh hh2
  obtain ⟨S, eS, S1, S2, _⟩ := F32.ofInt_pos dst_size hs hs2
  have p31 := F32.pow2_pos 31
  have hquot : ∀ d : ℚ, 1 ≤ d → d ≤ F32.pow2 31 →
      F32.div (F32.fin S) (F32.fin d) = F32.fin (F32.rne (S / d)) ∧ 0 < F32.rne (S / d) := by
    intro d d1 d2
    have hd0 : 0 < d := by linarith
    have hq0 : 0 < S / d := div_pos (by linarith) hd0
    have hup : S / d ≤ F32.pow2 31 := by
      rw [div_le_iff₀ hd0]
      calc S ≤ F32.pow2 31 := S2
        _ = F32.pow2 31 * 1 := by ring
        _ ≤ F32.pow2 31 * d := mul_le_mul_of_nonneg_left d1 (le_of_lt p31)
    have hlow : F32.pow2 (-31) ≤ S / d := by
      rw [le_div_iff₀ hd0]
      have e : F32.pow2 (-31) * F32.pow2 31 = 1 := by
        rw [← F32.pow2_add]; exact F32.pow2_zero
      calc F32.pow2 (-31) * d ≤ F32.pow2 (-31) * F32.pow2 31 :=
            mul_le_mul_of_nonneg_left d2 (le_of_lt (F32.pow2_pos _))
        _ = 1 := e
        _ ≤ S := S1
    have r1 : F32.rne (S / d) ≤ F32.pow2 31 := by
      have := F32.rne_mono _ _ hup
      rwa [F32.pow2_exact 31 (by decide)] at this
    have r2 : F32.pow2 (-31) ≤ F32.rne (S / d) := by
      have := F32.rne_mono _ _ hlow
      rwa [F32.pow2_exact (-31) (by decide)] at this
    refine ⟨?_, lt_of_lt_of_le (F32.pow2_pos _) r2⟩
    rw [F32.div_fin_fin S d (by linarith) (ne_of_gt hd0)]
    exact F32.ofRat_of_nonneg _ (le_of_lt hq0)
      (lt_of_le_of_lt r1 (F32.pow2_lt (by decide)))
  obtain ⟨qw, pw⟩ := hquot w w1 w2
  obtain ⟨qh, ph⟩ := hquot h h1 h2
  refine ⟨w, h, S, if F32.rne (S / h) < F32.rne (S / w) then F32.rne (S / h)
    else F32.rne (S / w), ew, eh, eS, ?_, w1, w2, h1, h2, S1, S2, ?_, ?_, ?_⟩
  · unfold letterbox_scale
    rw [ew, eh, eS, qw, qh, F32.fmin_fin_fin]
  · split
    · exact ph
    · exact pw
  · split
    · rename_i hc; exact le_of_lt hc
    · exact le_refl _
  · split
    · exact le_refl _
    · rename_i hc; exact not_lt.1 hc

/-- One resized dimension (lines 300-301): for a target size below `2^22` the
conversion is defined and the result lies in `[0, dst_size]`. -/
theorem new_dim_spec (w s : ℚ) (S : Int) (hw : 1 ≤ w) (hw2 : w ≤ F32.pow2 31)
    (hs : 0 < s) (hsq : s ≤ F32.rne ((S : ℚ) / w)) (hS : 1 ≤ S) (hS2 : S < (2 : Int) ^ 22) :
    ∃ z : Int, F32.toInt (F32.cround (F32.mul (F32.fin w) (F32.fin s))) = some z ∧
      0 ≤ z ∧ z ≤ S := by
  have hw0 : 0 < w := by linarith
  have hSq : (1 : ℚ) ≤ (S : ℚ) := by exact_mod_cast hS
  have hSq2 : (S : ℚ) ≤ F32.pow2 22 := by
    rw [show (22 : Int) = ((22 : Nat) : Int) from rfl, F32.pow2_intCast_eq]
    exact_mod_cast (le_of_lt hS2)
  have p31 := F32.pow2_pos 31
  -- the quotient lies in the normal range
  have hlow : F32.pow2 (-126) ≤ (S : ℚ) / w := by
    rw [le_div_iff₀ hw0]
    have e : F32.pow2 (-31) * F32.pow2 31 = 1 := by
      rw [← F32.pow2_add]; exact F32.pow2_zero
    have l1 : F32.pow2 (-126) ≤ F32.pow2 (-31) := F32.pow2_le (by decide)
    calc F32.pow2 (-126) * w ≤ F32.pow2 (-31) * w :=
          mul_le_mul_of_nonneg_right l1 (le_of_lt hw0)
      _ ≤ F32.pow2 (-31) * F32.pow2 31 :=
          mul_le_mul_of_nonneg_left hw2 (le_of_lt (F32.pow2_pos _))
      _ = 1 := e
      _ ≤ (S : ℚ) := hSq
  have hq0 : 0 ≤ (S : ℚ) / w := le_of_lt (lt_of_lt_of_le (F32.pow2_pos _) hlow)
  have hrel : F32.rne ((S : ℚ) / w) ≤ (S : ℚ) / w * (1 + F32.pow2 (-24)) := by
    rw [F32.rne_of_nonneg _ hq0]
    exact F32.rneAbs_le_rel _ hlow
  -- the exact product is at most S + 1/4
  have hprod : w * s ≤ (S : ℚ) + 1 / 4 := by
    have e24 : F32.pow2 22 * F32.pow2 (-24) = 1 / 4 := by
      rw [← F32.pow2_add]
      unfold F32.pow2
      norm_num
    have h1 : w * s ≤ w * ((S : ℚ) / w * (1 + F32.pow2 (-24))) :=
      mul_le_mul_of_nonneg_left (le_trans hsq hrel) (le_of_lt hw0)
    have h2 : w * ((S : ℚ) / w * (1 + F32.pow2 (-24))) =
        (S : ℚ) + (S : ℚ) * F32.pow2 (-24) := by
      field_simp
      ring
    have h3 : (S : ℚ) * F32.pow2 (-24) ≤ 1 / 4 := by
      rw [← e24]
      exact mul_le_mul_of_nonneg_right hSq2 (le_of_lt (F32.pow2_pos _))
    linarith
  have hprod0 : 0 < w * s := mul_pos hw0 hs
  -- S + 1/4 is a binary32 value
  have hex : F32.rne ((S : ℚ) + 1 / 4) = (S : ℚ) + 1 / 4 := by
    have hnn : (0 : ℚ) ≤ (S : ℚ) + 1 / 4 := by linarith
    rw [F32.rne_of_nonneg _ hnn]
    have e := F32.rneAbs_exact (4 * S + 1).toNat (-2) (by omega) (by decide)
    have hc : (((4 * S + 1).toNat : Nat) : ℚ) = 4 * (S : ℚ) + 1 := by
      rw [← Int.cast_natCast, Int.toNat_of_nonneg (by omega)]
      push_cast
      ring
    have hp : F32.pow2 (-2) = 1 / 4 := by unfold F32.pow2; norm_num
    rw [hc, hp] at e
    have e2 : (4 * (S : ℚ) + 1) * (1 / 4) = (S : ℚ) + 1 / 4 := by ring
    rw [e2] at e
    exact e
  have hp1 : F32.rne (w * s) ≤ (S : ℚ) + 1 / 4 := by
    have := F32.rne_mono _ _ hprod
    rwa [hex] at this
  have hp0 : 0 ≤ F32.rne (w * s) := F32.rne_nonneg _ (le_of_lt hprod0)
  have hp128 : F32.rne (w * s) < F32.pow2 128 := by
    have l1 : F32.pow2 23 < F32.pow2 128 := F32.pow2_lt (by decide)
    have l2 : (1 : ℚ) ≤ F32.pow2 22 := le_trans hSq hSq2
    have e23 : F32.pow2 23 = F32.pow2 22 * 2 := by
      rw [show (23 : Int) = 22 + 1 from rfl, F32.pow2_add]
      congr 1
      unfold F32.pow2
      norm_num
    linarith
  have hmul : F32.mul (F32.fin w) (F32.fin s) = F32.fin (F32.rne (w * s)) := by
    rw [F32.mul_fin_fin w s (ne_of_gt hprod0)]
    exact F32.ofRat_of_nonneg _ (le_of_lt hprod0) hp128
  have hz0 : 0 ≤ ⌊F32.rne (w * s) + 1 / 2⌋ := by
    apply Int.floor_nonneg.2
    linarith
  have hzS : ⌊F32.rne (w * s) + 1 / 2⌋ ≤ S := by
    have : ⌊F32.rne (w * s) + 1 / 2⌋ < S + 1 := by
      rw [Int.floor_lt]
      push_cast
      linarith
    omega
  refine ⟨⌊F32.rne (w * s) + 1 / 2⌋, ?_, hz0, hzS⟩
  rw [hmul]
  have hcr : F32.cround (F32.fin (F32.rne (w * s))) =
      F32.fin ((⌊F32.rne (w * s) + 1 / 2⌋ : Int) : ℚ) := by
    simp only [F32.cround, if_pos hp0]
  rw [hcr]
  exact F32.toInt_intCast _ (by omega) (by omega)

theorem letterbox_of_dims (img_w img_h dst_size new_w new_h : Int)
    (h1 : F32.toInt (F32.cround (F32.mul (F32.ofInt img_w)
      (letterbox_scale img_w img_h dst_size))) = some new_w)
    (h2 : F32.toInt (F32.cround (F32.mul (F32.ofInt img_h)
      (letterbox_scale img_w img_h dst_size))) = some new_h) :
    letterbox img_w img_h dst_size =
      some ⟨letterbox_scale img_w img_h dst_size, new_w, new_h, dst_size - new_w,
        dst_size - new_h, Int.tdiv (dst_size - new_w) 2, Int.tdiv (dst_size - new_h) 2,
        dst_size - new_w - Int.tdiv (dst_size - new_w) 2,
        dst_size - new_h - Int.tdiv (dst_size - new_h) 2⟩ := by
  unfold letterbox
  simp only [h1, h2]

theorem letterbox_some (img_w img_h dst_size : Int) (lb : Letterbox)
    (h : letterbox img_w img_h dst_size = some lb) :
    lb.scale = letterbox_scale img_w img_h dst_size ∧
    F32.toInt (F32.cround (F32.mul (F32.ofInt img_w)
      (letterbox_scale img_w img_h dst_size))) = some lb.new_w ∧
    F32.toInt (F32.cround (F32.mul (F32.ofInt img_h)
      (letterbox_scale img_w img_h dst_size))) = some lb.new_h ∧
    lb.wpad = dst_size - lb.new_w ∧ lb.hpad = dst_size - lb.new_h ∧
    lb.pad_left = Int.tdiv lb.wpad 2 ∧ lb.pad_top = Int.tdiv lb.hpad 2 ∧
    lb.pad_right = lb.wpad - lb.pad_left ∧ lb.pad_bottom = lb.hpad - lb.pad_top := by
  cases h1 : F32.toInt (F32.cround (F32.mul (F32.ofInt img_w)
      (letterbox_scale img_w img_h dst_size))) with
  | none =>
    unfold letterbox at h
    simp only [h1] at h
    exact absurd h (by simp)
  | some nw =>
    cases h2 : F32.toInt (F32.cround (F32.mul (F32.ofInt img_h)
        (letterbox_scale img_w img_h dst_size))) with
    | none =>
      unfold letterbox at h
      simp only [h1, h2] at h
      exact absurd h (by simp)
    | some nh =>
      rw [letterbox_of_dims img_w img_h dst_size nw nh h1 h2] at h
      have := Option.some.inj h
      rw [← this]
      exact ⟨rfl, rfl, rfl, rfl, rfl, rfl, rfl, rfl, rfl⟩

/-- **C10 (amended).** For every image with `img_w, img_h ≥ 1` (in the range
of `int`) and every target size `1 ≤ dst_size < 2^22`, the letterbox
parameters of `Yolo::detect` are defined and satisfy `0 ≤ new_w ≤ dst_size`
and `0 ≤ new_h ≤ dst_size`; the paddings `wpad = dst_size - new_w` and
`hpad = dst_size - new_h` are non-negative; the left pad is `floor(wpad / 2)`
and the right pad `wpad - pad_left` equals the left pad or the left pad plus
one, and likewise for the top and bottom pads. -/
theorem letterbox_padding (img_w img_h dst_size : Int) (hw : 1 ≤ img_w)
    (hw2 : img_w < (2 : Int) ^ 31) (hh : 1 ≤ img_h) (hh2 : img_h < (2 : Int) ^ 31)
    (hs : 1 ≤ dst_size) (hs2 : dst_size < (2 : Int) ^ 22) :
    ∃ lb : Letterbox, letterbox img_w img_h dst_size = some lb ∧
      0 ≤ lb.new_w ∧ lb.new_w ≤ dst_size ∧ 0 ≤ lb.new_h ∧ lb.new_h ≤ dst_size ∧
      lb.wpad = dst_size - lb.new_w ∧ lb.hpad = dst_size - lb.new_h ∧
      0 ≤ lb.wpad ∧ 0 ≤ lb.hpad ∧
      lb.pad_left = ⌊(lb.wpad : ℚ) / 2⌋ ∧ lb.pad_top = ⌊(lb.hpad : ℚ) / 2⌋ ∧
      lb.pad_right = lb.wpad - lb.pad_left ∧ lb.pad_bottom = lb.hpad - lb.pad_top ∧
      (lb.pad_right = lb.pad_left ∨ lb.pad_right = lb.pad_left + 1) ∧
      (lb.pad_bottom = lb.pad_top ∨ lb.pad_bottom = lb.pad_top + 1) := by
  obtain ⟨w, h, S, s, ew, eh, eS, es, w1, w2, h1, h2, _, _, s0, sw, sh⟩ :=
    letterbox_scale_spec img_w img_h dst_size hw hw2 hh hh2 hs (by omega)
  have hSx : F32.ofInt dst_size = F32.fin (dst_size : ℚ) :=
    F32.ofInt_exact dst_size (by omega) (by omega)
  have hS : S = (dst_size : ℚ) := by
    rw [hSx] at eS
    exact (F32.fin.inj eS).symm
  rw [hS] at sw sh
  obtain ⟨zw, hzw, zw0, zwS⟩ := new_dim_spec w s dst_size w1 w2 s0 sw hs hs2
  obtain ⟨zh, hzh, zh0, zhS⟩ := new_dim_spec h s dst_size h1 h2 s0 sh hs hs2
  rw [← ew, ← es] at hzw
  rw [← eh, ← es] at hzh
  refine ⟨_, letterbox_of_dims img_w img_h dst_size zw zh hzw hzh, zw0, zwS, zh0, zhS,
    rfl, rfl, ?_, ?_, ?_, ?_, rfl, rfl, ?_, ?_⟩
  · show 0 ≤ dst_size - zw
    omega
  · show 0 ≤ dst_size - zh
    omega
  · show Int.tdiv (dst_size - zw) 2 = ⌊((dst_size - zw : Int) : ℚ) / 2⌋
    rw [Int.tdiv_eq_ediv (by omega) (by decide)]
    exact (Rat.floor_intCast_div_natCast _ 2).symm
  · show Int.tdiv (dst_size - zh) 2 = ⌊((dst_size - zh : Int) : ℚ) / 2⌋
    rw [Int.tdiv_eq_ediv (by omega) (by decide)]
    exact (Rat.floor_intCast_div_natCast _ 2).symm
  · show dst_size - zw - Int.tdiv (dst_size - zw) 2 = Int.tdiv (dst_size - zw) 2 ∨
      dst_size - zw - Int.tdiv (dst_size - zw) 2 = Int.tdiv (dst_size - zw) 2 + 1
    rw [Int.tdiv_eq_ediv (by omega) (by decide)]
    omega
  · show dst_size - zh - Int.tdiv (dst_size - zh) 2 = Int.tdiv (dst_size - zh) 2 ∨
      dst_size - zh - Int.tdiv (dst_size - zh) 2 = Int.tdiv (dst_size - zh) 2 + 1
    rw [Int.tdiv_eq_ediv (by omega) (by decide)]
    omega


namespace F32

theorem le_of_not_lt {a b : F32} (ha : a.isNaN = false) (hb : b.isNaN = false)
    (h : ¬ lt b a) : le a b := by
  refine ⟨ha, hb, ?_⟩
  unfold lt at h
  by_cases h1 : a.cls < b.cls
  · exact Or.inl h1
  · right
    by_cases h2 : b.cls < a.cls
    · exact absurd ⟨hb, ha, Or.inl h2⟩ h
    · have hc : a.cls = b.cls := by omega
      refine ⟨hc, ?_⟩
      by_contra h3
      exact h ⟨hb, ha, Or.inr ⟨hc.symm, not_le.1 h3⟩⟩

theorem not_lt_of_le {a b : F32} (h : le a b) : ¬ lt b a := by
  rintro ⟨_, _, h3⟩
  obtain ⟨_, _, g3⟩ := h
  rcases h3 with h | ⟨h, h'⟩
  · rcases g3 with g | ⟨g, _⟩ <;> omega
  · rcases g3 with g | ⟨_, g'⟩
    · omega
    · exact absurd g' (not_le.2 h')

theorem fmin_isNaN {v c : F32} (hv : v.isNaN = false) (hc : c.isNaN = false) :
    (fmin v c).isNaN = false := by
  unfold fmin
  split
  · exact hc
  · exact hv

theorem fmin_le_right {v c : F32} (hv : v.isNaN = false) (hc : c.isNaN = false) :
    le (fmin v c) c := by
  unfold fmin
  split
  · exact le_refl_of hc
  · rename_i h
    exact le_of_not_lt hv hc h

theorem fmin_mono {v1 v2 c : F32} (h : le v1 v2) (hc : c.isNaN = false) :
    le (fmin v1 c) (fmin v2 c) := by
  have n1 := h.1
  have n2 := h.2.1
  unfold fmin
  by_cases h1 : lt c v1
  · rw [if_pos h1]
    by_cases h2 : lt c v2
    · rw [if_pos h2]; exact le_refl_of hc
    · rw [if_neg h2]
      exact absurd (le_trans_of h (le_of_not_lt n2 hc h2)) (fun hle => not_lt_of_le hle h1)
  · rw [if_neg h1]
    by_cases h2 : lt c v2
    · rw [if_pos h2]; exact le_of_not_lt n1 hc h1
    · rw [if_neg h2]; exact h

theorem le_fmax_right {u z : F32} (hu : u.isNaN = false) (hz : z.isNaN = false) :
    le z (fmax u z) := by
  unfold fmax
  split
  · exact le_refl_of hz
  · rename_i h
    exact le_of_not_lt hz hu h

theorem fmax_le {u z m : F32} (h1 : le u m) (h2 : le z m) : le (fmax u z) m := by
  unfold fmax
  split
  · exact h2
  · exact h1

theorem fmax_mono {u1 u2 z : F32} (h : le u1 u2) (hz : z.isNaN = false) :
    le (fmax u1 z) (fmax u2 z) := by
  have n1 := h.1
  have n2 := h.2.1
  unfold fmax
  by_cases h1 : lt u1 z
  · rw [if_pos h1]
    by_cases h2 : lt u2 z
    · rw [if_pos h2]; exact le_refl_of hz
    · rw [if_neg h2]; exact le_of_not_lt hz n2 h2
  · rw [if_neg h1]
    by_cases h2 : lt u2 z
    · rw [if_pos h2]
      exact absurd (le_trans_of (le_of_not_lt hz n1 h1) h) (fun hle => not_lt_of_le hle h2)
    · rw [if_neg h2]; exact h

theorem isFinite_of_between {x : F32} {a b : ℚ} (h1 : le (fin a) x) (h2 : le x (fin b)) :
    x.isFinite = true := by
  obtain ⟨_, n, h3⟩ := h1
  obtain ⟨_, _, g3⟩ := h2
  cases x with
  | fin q => rfl
  | nzero => rfl
  | pinf => simp [cls] at g3
  | ninf => simp [cls] at h3
  | nan => simp [isNaN] at n

/-- A finite binary32 value is what rounding its numeric value gives, up to
the sign of a zero. -/
theorem repr_of_finiteValue (a : F32) (h : a.IsFiniteValue) :
    a.isNaN = (ofRat a.num).isNaN ∧ a.cls = (ofRat a.num).cls ∧
      a.num = (ofRat a.num).num := by
  obtain ⟨h1, h2, h3, h4⟩ := h
  rcases ofRat_spec a.num with ⟨c, _⟩ | ⟨c, _⟩ | ⟨_, _, c, d⟩
  · rw [h2] at c; linarith
  · rw [h2] at c; linarith
  · refine ⟨?_, ?_, ?_⟩
    · rw [isNaN_of_isFinite h1, isNaN_of_isFinite c]
    · rw [cls_of_isFinite h1, cls_of_isFinite c]
    · rw [d, h2]

end F32

/-- The clamp of lines 385-388 gives a finite value between `0` and the limit
and is monotone. -/
theorem clamp_spec (v1 v2 : F32) (limit : Int) (h : F32.le v1 v2) (h0 : 0 ≤ limit)
    (h2 : limit < (2 : Int) ^ 24) :
    (clamp v1 limit).isFinite = true ∧ (clamp v2 limit).isFinite = true ∧
    0 ≤ (clamp v1 limit).num ∧ (clamp v1 limit).num ≤ (clamp v2 limit).num ∧
    (clamp v2 limit).num ≤ (limit : ℚ) := by
  have hL : F32.ofInt limit = F32.fin (limit : ℚ) := F32.ofInt_exact limit h0 h2
  have hq : (0 : ℚ) ≤ (limit : ℚ) := by exact_mod_cast h0
  have z0 : (F32.fin 0).isNaN = false := rfl
  have zL : (F32.fin (limit : ℚ)).isNaN = false := rfl
  have hz : F32.le (F32.fin 0) (F32.fin (limit : ℚ)) := F32.le_of_finite rfl rfl hq
  have n1 := h.1
  have n2 := h.2.1
  have m1 := F32.fmin_isNaN n1 zL
  have m2 := F32.fmin_isNaN n2 zL
  have a1 : F32.le (F32.fin 0) (clamp v1 limit) := by
    unfold clamp; rw [hL]; exact F32.le_fmax_right m1 z0
  have a2 : F32.le (clamp v1 limit) (clamp v2 limit) := by
    unfold clamp; rw [hL]; exact F32.fmax_mono (F32.fmin_mono h zL) z0
  have a3 : F32.le (clamp v2 limit) (F32.fin (limit : ℚ)) := by
    unfold clamp; rw [hL]; exact F32.fmax_le (F32.fmin_le_right n2 zL) hz
  have f1 : (clamp v1 limit).isFinite = true :=
    F32.isFinite_of_between a1 (F32.le_trans_of a2 a3)
  have f2 : (clamp v2 limit).isFinite = true :=
    F32.isFinite_of_between (F32.le_trans_of a1 a2) a3
  exact ⟨f1, f2, F32.num_le_of_le (a := F32.fin 0) rfl f1 a1, F32.num_le_of_le f1 f2 a2,
    F32.num_le_of_le (b := F32.fin (limit : ℚ)) f2 rfl a3⟩

/-- One axis of the coordinate mapping: the raw left edge is at most the raw
right edge when the extent is not negative and the scale is positive. -/
theorem mapped_edges_le (x w : F32) (pad : Int) (s : ℚ) (hx : x.IsFiniteValue)
    (hw : w.isFinite = true) (hw0 : 0 ≤ w.num) (hp : (F32.ofInt pad).isFinite = true)
    (hs : 0 < s) :
    F32.le (F32.div (F32.sub x (F32.ofInt pad)) (F32.fin s))
      (F32.div (F32.sub (F32.add x w) (F32.ofInt pad)) (F32.fin s)) := by
  have hxf : x.isFinite = true := hx.1
  obtain ⟨r1, r2, r3⟩ := F32.repr_of_finiteValue x hx
  obtain ⟨s1, s2, s3⟩ := F32.add_repr x w hxf hw
  have h1 : F32.le x (F32.add x w) :=
    F32.le_of_repr (F32.ofRat_le x.num (x.num + w.num) (by linarith)) r1 r2 r3 s1 s2 s3
  exact F32.div_mono_left _ _ s (F32.sub_mono_left _ _ _ h1 hp) hs

/-- The extent stored at lines 392-393: the single-precision difference of
two clamped edges lies between `0` and the limit. -/
theorem extent_spec (x0 x1 : F32) (limit : Int) (f0 : x0.isFinite = true)
    (f1 : x1.isFinite = true) (h0 : 0 ≤ x0.num) (h01 : x0.num ≤ x1.num)
    (h1 : x1.num ≤ (limit : ℚ)) (hl0 : 0 ≤ limit) (hl : limit < (2 : Int) ^ 24) :
    F32.le (F32.fin 0) (F32.sub x1 x0) ∧
      F32.le (F32.sub x1 x0) (F32.fin (limit : ℚ)) := by
  obtain ⟨d1, d2, d3⟩ := F32.sub_repr x1 x0 f1 f0
  obtain ⟨z1, z2, z3⟩ := F32.ofRat_repr_zero
  have hL : F32.ofRat (limit : ℚ) = F32.fin (limit : ℚ) := F32.ofInt_exact limit hl0 hl
  constructor
  · refine F32.le_of_repr (F32.ofRat_le 0 (x1.num - x0.num) (by linarith)) ?_ ?_ ?_ d1 d2 d3
    · rw [z1]; rfl
    · rw [z2]; rfl
    · rw [z3]; rfl
  · refine F32.le_of_repr (F32.ofRat_le (x1.num - x0.num) (limit : ℚ) (by linarith))
      d1 d2 d3 ?_ ?_ ?_
    · rw [hL]
    · rw [hL]
    · rw [hL]

/-- **C4 (amended).** For every image with width and height between 1 and
`2^24`, every target size at least 1 for which the letterbox parameters are
defined, and every kept box whose fields are finite binary32 values with a
non-negative width and height, the coordinate-mapping step of `Yolo::detect`
produces a box with `0 ≤ x ≤ x1 ≤ img_w - 1` and `0 ≤ y ≤ y1 ≤ img_h - 1`,
where `x1`, `y1` are the clamped right and bottom edges; the stored width and
height are the single-precision differences `x1 - x` and `y1 - y`, which lie
between `0` and `img_w - 1`, respectively `img_h - 1`; in particular they are
never negative. -/
theorem map_rect_clamped (img_w img_h dst_size : Int) (lb : Letterbox) (r : Rect)
    (hw : 1 ≤ img_w) (hw2 : img_w ≤ (2 : Int) ^ 24) (hh : 1 ≤ img_h)
    (hh2 : img_h ≤ (2 : Int) ^ 24) (hs : 1 ≤ dst_size) (hs2 : dst_size < (2 : Int) ^ 31)
    (hlb : letterbox img_w img_h dst_size = some lb)
    (hx : r.x.IsFiniteValue) (hy : r.y.IsFiniteValue)
    (hwf : r.width.IsFiniteValue) (hhf : r.height.IsFiniteValue)
    (hrw : F32.le (F32.fin 0) r.width) (hrh : F32.le (F32.fin 0) r.height) :
    F32.le (F32.fin 0) (map_rect img_w img_h lb.scale lb.pad_left lb.pad_top r).x ∧
    F32.le (map_rect img_w img_h lb.scale lb.pad_left lb.pad_top r).x
      (mapped_right img_w lb.scale lb.pad_left r) ∧
    F32.le (mapped_right img_w lb.scale lb.pad_left r) (F32.fin ((img_w : ℚ) - 1)) ∧
    (map_rect img_w img_h lb.scale lb.pad_left lb.pad_top r).width =
      F32.sub (mapped_right img_w lb.scale lb.pad_left r)
        (map_rect img_w img_h lb.scale lb.pad_left lb.pad_top r).x ∧
    F32.le (F32.fin 0) (map_rect img_w img_h lb.scale lb.pad_left lb.pad_top r).width ∧
    F32.le (map_rect img_w img_h lb.scale lb.pad_left lb.pad_top r).width
      (F32.fin ((img_w : ℚ) - 1)) ∧
    F32.le (F32.fin 0) (map_rect img_w img_h lb.scale lb.pad_left lb.pad_top r).y ∧
    F32.le (map_rect img_w img_h lb.scale lb.pad_left lb.pad_top r).y
      (mapped_bottom img_h lb.scale lb.pad_top r) ∧
    F32.le (mapped_bottom img_h lb.scale lb.pad_top r) (F32.fin ((img_h : ℚ) - 1)) ∧
    (map_rect img_w img_h lb.scale lb.pad_left lb.pad_top r).height =
      F32.sub (mapped_bottom img_h lb.scale lb.pad_top r)
        (map_rect img_w img_h lb.scale lb.pad_left lb.pad_top r).y ∧
    F32.le (F32.fin 0) (map_rect img_w img_h lb.scale lb.pad_left lb.pad_top r).height ∧
    F32.le (map_rect img_w img_h lb.scale lb.pad_left lb.pad_top r).height
      (F32.fin ((img_h : ℚ) - 1)) := by
  obtain ⟨e1, e2, e3, e4, e5, e6, e7, _, _⟩ := letterbox_some img_w img_h dst_size lb hlb
  obtain ⟨_, _, _, s, _, _, _, es, _, _, _, _, _, _, s0, _, _⟩ :=
    letterbox_scale_spec img_w img_h dst_size hw (by omega) hh (by omega) hs hs2
  have hscale : lb.scale = F32.fin s := by rw [e1, es]
  obtain ⟨bw1, bw2⟩ := F32.toInt_some_bounds _ _ e2
  obtain ⟨bh1, bh2⟩ := F32.toInt_some_bounds _ _ e3
  have hpl : (F32.ofInt lb.pad_left).isFinite = true := by
    apply F32.ofInt_isFinite
    · rw [e6, e4]
      by_cases hc : 0 ≤ dst_size - lb.new_w
      · rw [Int.tdiv_eq_ediv hc (by decide)]; omega
      · have hn : dst_size - lb.new_w = -(-(dst_size - lb.new_w)) := by omega
        rw [hn, Int.neg_tdiv, Int.tdiv_eq_ediv (by omega) (by decide)]
        omega
    · rw [e6, e4]
      by_cases hc : 0 ≤ dst_size - lb.new_w
      · rw [Int.tdiv_eq_ediv hc (by decide)]; omega
      · have hn : dst_size - lb.new_w = -(-(dst_size - lb.new_w)) := by omega
        rw [hn, Int.neg_tdiv, Int.tdiv_eq_ediv (by omega) (by decide)]
        omega
  have hpt : (F32.ofInt lb.pad_top).isFinite = true := by
    apply F32.ofInt_isFinite
    · rw [e7, e5]
      by_cases hc : 0 ≤ dst_size - lb.new_h
      · rw [Int.tdiv_eq_ediv hc (by decide)]; omega
      · have hn : dst_size - lb.new_h = -(-(dst_size - lb.new_h)) := by omega
        rw [hn, Int.neg_tdiv, Int.tdiv_eq_ediv (by omega) (by decide)]
        omega
    · rw [e7, e5]
      by_cases hc : 0 ≤ dst_size - lb.new_h
      · rw [Int.tdiv_eq_ediv hc (by decide)]; omega
      · have hn : dst_size - lb.new_h = -(-(dst_size - lb.new_h)) := by omega
        rw [hn, Int.neg_tdiv, Int.tdiv_eq_ediv (by omega) (by decide)]
        omega
  have hw0 : 0 ≤ r.width.num := F32.num_le_of_le (a := F32.fin 0) rfl hwf.1 hrw
  have hh0 : 0 ≤ r.height.num := F32.num_le_of_le (a := F32.fin 0) rfl hhf.1 hrh
  have ex := mapped_edges_le r.x r.width lb.pad_left s hx hwf.1 hw0 hpl s0
  have ey := mapped_edges_le r.y r.height lb.pad_top s hy hhf.1 hh0 hpt s0
  obtain ⟨fx0, fx1, x0, x01, x1⟩ := clamp_spec _ _ (img_w - 1) ex (by omega) (by omega)
  obtain ⟨fy0, fy1, y0, y01, y1⟩ := clamp_spec _ _ (img_h - 1) ey (by omega) (by omega)
  obtain ⟨wx0, wx1⟩ := extent_spec _ _ (img_w - 1) fx0 fx1 x0 x01 x1 (by omega) (by omega)
  obtain ⟨wy0, wy1⟩ := extent_spec _ _ (img_h - 1) fy0 fy1 y0 y01 y1 (by omega) (by omega)
  have cw : ((img_w - 1 : Int) : ℚ) = (img_w : ℚ) - 1 := by push_cast; ring
  have ch : ((img_h - 1 : Int) : ℚ) = (img_h : ℚ) - 1 := by push_cast; ring
  rw [cw] at x1 wx1
  rw [ch] at y1 wy1
  simp only [map_rect, mapped_right, mapped_bottom, hscale]
  exact ⟨F32.le_of_finite rfl fx0 x0, F32.le_of_finite fx0 fx1 x01,
    F32.le_of_finite fx1 rfl x1, trivial, wx0, wx1,
    F32.le_of_finite rfl fy0 y0, F32.le_of_finite fy0 fy1 y01,
    F32.le_of_finite fy1 rfl y1, trivial, wy0, wy1⟩


/-! ## Lemmas on the score sorter -/

theorem oa_eq_of_getElem? (xs : List Object) (k : Int) (o : Object)
    (h : xs[k.toNat]? = some o) : oa xs k = o := by
  simp [oa, objAt, List.getD, h]

theorem getElem?_oa (xs : List Object) (k : Int) (hk : k.toNat < xs.length) :
    xs[k.toNat]? = some (oa xs k) := by
  simp [oa, objAt, List.getD, List.getElem?_eq_getElem hk]

theorem prob_at_eq (xs : List Object) (left right k : Int) (h0 : 0 ≤ k)
    (hl : left ≤ k) (hr : k ≤ right) (hn : k < xs.length) :
    prob_at xs left right k = some (pr xs k) := by
  have hk : k.toNat < xs.length := by omega
  unfold prob_at
  rw [if_pos ⟨h0, hl, hr⟩, getElem?_oa xs k hk]
  rfl

theorem scan_up_spec (xs : List Object) (left right : Int) (p : ℚ)
    (h0 : 0 ≤ left) (hn : right < xs.length) (fuel : Nat) :
    ∀ (i k : Int), left ≤ i → i ≤ k → k ≤ right → pr xs k ≤ p →
      k - i + 1 ≤ (fuel : Int) →
      ∃ i1, scan_up xs left right p fuel i = some i1 ∧ i ≤ i1 ∧ i1 ≤ k ∧
        pr xs i1 ≤ p ∧ ∀ m : Int, i ≤ m → m < i1 → p < pr xs m := by
  induction fuel with
  | zero =>
    intro i k _ hik _ _ hf
    exfalso
    have : (((0 : Nat) : Int)) = 0 := rfl
    omega
  | succ fuel ih =>
    intro i k hli hik hkr hk hf
    unfold scan_up
    rw [prob_at_eq xs left right i (by omega) hli (by omega) (by omega)]
    simp only []
    by_cases hgt : pr xs i > p
    · rw [if_pos hgt]
      have hne : i ≠ k := by
        intro h
        rw [h] at hgt
        exact absurd hk (not_le.2 hgt)
      obtain ⟨i1, h1, h2, h3, h4, h5⟩ :=
        ih (i + 1) k (by omega) (by omega) hkr hk (by push_cast at hf; omega)
      refine ⟨i1, h1, by omega, h3, h4, ?_⟩
      intro m hm1 hm2
      by_cases hmi : m = i
      · rw [hmi]; exact hgt
      · exact h5 m (by omega) hm2
    · rw [if_neg hgt]
      exact ⟨i, rfl, le_refl _, hik, not_lt.1 hgt, fun m hm1 hm2 => by omega⟩

theorem scan_down_spec (xs : List Object) (left right : Int) (p : ℚ)
    (h0 : 0 ≤ left) (hn : right < xs.length) (fuel : Nat) :
    ∀ (j k : Int), j ≤ right → k ≤ j → left ≤ k → p ≤ pr xs k →
      j - k + 1 ≤ (fuel : Int) →
      ∃ j1, scan_down xs left right p fuel j = some j1 ∧ j1 ≤ j ∧ k ≤ j1 ∧
        p ≤ pr xs j1 ∧ ∀ m : Int, j1 < m → m ≤ j → pr xs m < p := by
  induction fuel with
  | zero =>
    intro j k _ hkj _ _ hf
    exfalso
    have : (((0 : Nat) : Int)) = 0 := rfl
    omega
  | succ fuel ih =>
    intro j k hjr hkj hlk hk hf
    unfold scan_down
    rw [prob_at_eq xs left right j (by omega) (by omega) hjr (by omega)]
    simp only []
    by_cases hlt : pr xs j < p
    · rw [if_pos hlt]
      have hne : j ≠ k := by
        intro h
        rw [h] at hlt
        exact absurd hk (not_le.2 hlt)
      obtain ⟨j1, h1, h2, h3, h4, h5⟩ :=
        ih (j - 1) k (by omega) (by omega) hlk hk (by push_cast at hf; omega)
      refine ⟨j1, h1, by omega, h3, h4, ?_⟩
      intro m hm1 hm2
      by_cases hmj : m = j
      · rw [hmj]; exact hlt
      · exact h5 m hm1 (by omega)
    · rw [if_neg hlt]
      exact ⟨j, rfl, le_refl _, hkj, not_lt.1 hlt, fun m hm1 hm2 => by omega⟩

theorem cons_set_perm {α : Type} (t : List α) :
    ∀ (j : Nat) (a b : α), t[j]? = some b → (b :: t.set j a).Perm (a :: t) := by
  induction t with
  | nil => intro j a b h; simp at h
  | cons c t ih =>
    intro j a b h
    cases j with
    | zero =>
      simp only [List.getElem?_cons_zero, Option.some.injEq] at h
      rw [List.set_cons_zero, h]
      exact List.Perm.swap _ _ _
    | succ j =>
      simp only [List.getElem?_cons_succ] at h
      rw [List.set_cons_succ]
      have h1 : (b :: c :: t.set j a).Perm (c :: b :: t.set j a) := List.Perm.swap _ _ _
      have h2 : (c :: b :: t.set j a).Perm (c :: a :: t) := (ih j a b h).cons c
      exact (h1.trans h2).trans (List.Perm.swap _ _ _)

theorem set_set_perm_lt {α : Type} (xs : List α) :
    ∀ (i j : Nat) (a b : α), i < j → xs[i]? = some a → xs[j]? = some b →
      ((xs.set i b).set j a).Perm xs := by
  induction xs with
  | nil => intro i j a b _ h; simp at h
  | cons c t ih =>
    intro i j a b hij hi hj
    cases j with
    | zero => omega
    | succ j =>
      simp only [List.getElem?_cons_succ] at hj
      cases i with
      | zero =>
        simp only [List.getElem?_cons_zero, Option.some.injEq] at hi
        rw [List.set_cons_zero, List.set_cons_succ, hi]
        exact cons_set_perm t j a b hj
      | succ i =>
        simp only [List.getElem?_cons_succ] at hi
        rw [List.set_cons_succ, List.set_cons_succ]
        exact (ih i j a b (by omega) hi hj).cons c

theorem set_set_perm_any {α : Type} (xs : List α) (i j : Nat) (a b : α)
    (hi : xs[i]? = some a) (hj : xs[j]? = some b) :
    ((xs.set i b).set j a).Perm xs := by
  rcases Nat.lt_trichotomy i j with h | h | h
  · exact set_set_perm_lt xs i j a b h hi hj
  · subst h
    rw [hi] at hj
    have hab : a = b := Option.some.inj hj
    subst hab
    rw [List.set_set]
    have hlen : i < xs.length := by
      by_contra hge
      rw [List.getElem?_eq_none (by omega)] at hi
      exact absurd hi (by simp)
    have : xs.set i a = xs := by
      apply List.ext_getElem?
      intro m
      rw [List.getElem?_set]
      split
      · rename_i hm
        subst hm
        simp [hlen, hi]
      · rfl
    rw [this]
  · rw [List.set_comm _ _ _ (by omega)]
    exact set_set_perm_lt xs j i b a h hj hi

theorem swap_at_spec (xs : List Object) (left right i j : Int) (h0 : 0 ≤ left)
    (hn : right < xs.length) (hli : left ≤ i) (hir : i ≤ right) (hlj : left ≤ j)
    (hjr : j ≤ right) :
    ∃ ys, swap_at xs left right i j = some ys ∧ ys.length = xs.length ∧ ys.Perm xs ∧
      oa ys i = oa xs j ∧ oa ys j = oa xs i ∧
      ∀ m : Int, 0 ≤ m → m ≠ i → m ≠ j → oa ys m = oa xs m := by
  have hi : i.toNat < xs.length := by omega
  have hj : j.toNat < xs.length := by omega
  have gi := getElem?_oa xs i hi
  have gj := getElem?_oa xs j hj
  refine ⟨(xs.set i.toNat (oa xs j)).set j.toNat (oa xs i), ?_, ?_, ?_, ?_, ?_, ?_⟩
  · unfold swap_at
    rw [if_pos ⟨by omega, hli, hir, by omega, hlj, hjr⟩, gi, gj]
  · simp
  · exact set_set_perm_any xs _ _ _ _ gi gj
  · apply oa_eq_of_getElem?
    rw [List.getElem?_set]
    by_cases hij : j.toNat = i.toNat
    · have : j = i := by omega
      rw [if_pos hij, this]
      simp [hi]
    · rw [if_neg hij, List.getElem?_set, if_pos rfl, if_pos hi]
  · apply oa_eq_of_getElem?
    rw [List.getElem?_set, if_pos rfl]
    simp [hj]
  · intro m hm hmi hmj
    simp only [oa, objAt, List.getD_eq_getElem?_getD]
    rw [List.getElem?_set_ne (by omega), List.getElem?_set_ne (by omega)]


theorem segPerm_refl (left right : Int) (xs : List Object) : SegPerm left right xs xs :=
  ⟨rfl, List.Perm.refl _, fun _ _ _ => rfl, fun m h1 h2 => ⟨m, h1, h2, rfl⟩⟩

theorem segPerm_trans (left right : Int) (xs ys zs : List Object)
    (h1 : SegPerm left right xs ys) (h2 : SegPerm left right ys zs) :
    SegPerm left right xs zs := by
  obtain ⟨a1, a2, a3, a4⟩ := h1
  obtain ⟨b1, b2, b3, b4⟩ := h2
  refine ⟨b1.trans a1, b2.trans a2, ?_, ?_⟩
  · intro m hm ho
    rw [b3 m hm ho, a3 m hm ho]
  · intro m hl hr
    obtain ⟨m1, c1, c2, c3⟩ := b4 m hl hr
    obtain ⟨m2, d1, d2, d3⟩ := a4 m1 c1 c2
    exact ⟨m2, d1, d2, c3.trans d3⟩

theorem segPerm_widen (l r l2 r2 : Int) (xs ys : List Object) (h : SegPerm l r xs ys)
    (hl : l2 ≤ l) (hr : r ≤ r2) (h0 : 0 ≤ l2) : SegPerm l2 r2 xs ys := by
  obtain ⟨a1, a2, a3, a4⟩ := h
  refine ⟨a1, a2, ?_, ?_⟩
  · intro m hm ho
    exact a3 m hm (by omega)
  · intro m hml hmr
    by_cases hin : l ≤ m ∧ m ≤ r
    · obtain ⟨m1, c1, c2, c3⟩ := a4 m hin.1 hin.2
      exact ⟨m1, by omega, by omega, c3⟩
    · exact ⟨m, hml, hmr, a3 m (by omega) (by omega)⟩

theorem partition_loop_spec (left right : Int) (p : ℚ) (sf : Nat) (h0 : 0 ≤ left)
    (hsf : right - left + 1 ≤ (sf : Int)) (fuel : Nat) :
    ∀ (xs : List Object) (i j : Int), right < xs.length →
      PartInv left right p xs i j → (i ≤ j → j - i + 2 ≤ (fuel : Int)) → 1 ≤ fuel →
      ∃ ys i2 j2, partition_loop left right p sf fuel xs i j = some (ys, i2, j2) ∧
        PartInv left right p ys i2 j2 ∧ j2 < i2 ∧ SegPerm left right xs ys := by
  induction fuel with
  | zero => intro xs i j _ _ _ h1; omega
  | succ fuel ih =>
    intro xs i j hn hinv hfuel _
    unfold partition_loop
    by_cases hij : i ≤ j
    · rw [if_pos hij]
      obtain ⟨b1, b2, b3, b4, hlow, hup, hsent, hprog⟩ := hinv
      obtain ⟨ku, kd, s1, s2, s3, s4, s5, s6, s7⟩ := hsent hij
      have hf := hfuel hij
      push_cast at hf
      obtain ⟨i1, e1, u1, u2, u3, u4⟩ :=
        scan_up_spec xs left right p h0 hn sf i ku b1 s1 s2 s3 (by omega)
      obtain ⟨j1, e2, d1, d2, d3, d4⟩ :=
        scan_down_spec xs left right p h0 hn sf j kd b2 s5 s4 s6 (by omega)
      rw [e1, e2]
      simp only []
      by_cases hsw : i1 ≤ j1
      · rw [if_pos hsw]
        obtain ⟨xs1, e3, w1, w2, w3, w4, w5⟩ :=
          swap_at_spec xs left right i1 j1 h0 hn (by omega) (by omega) (by omega) (by omega)
        rw [e3]
        simp only []
        have hinv1 : PartInv left right p xs1 (i1 + 1) (j1 - 1) := by
          refine ⟨by omega, by omega, by omega, by omega, ?_, ?_, ?_, ?_⟩
          · intro m hm1 hm2
            by_cases hmi : m = i1
            · rw [hmi]
              show p ≤ (oa xs1 i1).prob
              rw [w3]
              exact d3
            · have : oa xs1 m = oa xs m := w5 m (by omega) hmi (by omega)
              show p ≤ (oa xs1 m).prob
              rw [this]
              by_cases hmlt : m < i
              · exact hlow m hm1 hmlt
              · exact le_of_lt (u4 m (by omega) (by omega))
          · intro m hm1 hm2
            by_cases hmj : m = j1
            · rw [hmj]
              show (oa xs1 j1).prob ≤ p
              rw [w4]
              exact u3
            · have : oa xs1 m = oa xs m := w5 m (by omega) (by omega) hmj
              show (oa xs1 m).prob ≤ p
              rw [this]
              by_cases hmgt : j < m
              · exact hup m hmgt hm2
              · exact le_of_lt (d4 m (by omega) (by omega))
          · intro hle
            refine ⟨j1, i1, by omega, by omega, ?_, by omega, by omega, ?_,
              Or.inl ⟨by omega, by omega⟩⟩
            · show (oa xs1 j1).prob ≤ p
              rw [w4]
              exact u3
            · show p ≤ (oa xs1 i1).prob
              rw [w3]
              exact d3
          · intro _
            exact ⟨by omega, by omega⟩
        obtain ⟨ys, i2, j2, r1, r2, r3, r4⟩ :=
          ih xs1 (i1 + 1) (j1 - 1) (by rw [w1]; exact hn) hinv1 (by intro h; omega)
            (by omega)
        refine ⟨ys, i2, j2, r1, r2, r3, ?_⟩
        refine segPerm_trans left right xs xs1 ys ⟨w1, w2, ?_, ?_⟩ r4
        · intro m hm ho
          exact w5 m hm (by omega) (by omega)
        · intro m hm1 hm2
          by_cases hmi : m = i1
          · exact ⟨j1, by omega, by omega, by rw [hmi, w3]⟩
          · by_cases hmj : m = j1
            · exact ⟨i1, by omega, by omega, by rw [hmj, w4]⟩
            · exact ⟨m, hm1, hm2, w5 m (by omega) hmi hmj⟩
      · rw [if_neg hsw]
        have hinv1 : PartInv left right p xs i1 j1 := by
          refine ⟨by omega, by omega, by omega, by omega, ?_, ?_, ?_, ?_⟩
          · intro m hm1 hm2
            by_cases hmlt : m < i
            · exact hlow m hm1 hmlt
            · exact le_of_lt (u4 m (by omega) hm2)
          · intro m hm1 hm2
            by_cases hmgt : j < m
            · exact hup m hmgt hm2
            · exact le_of_lt (d4 m hm1 (by omega))
          · intro hle
            exact absurd hle hsw
          · intro _
            rcases s7 with h | h
            · exact ⟨by omega, by omega⟩
            · omega
        exact ih xs i1 j1 hn hinv1 (by intro h; omega) (by omega)
    · rw [if_neg hij]
      exact ⟨xs, i, j, rfl, hinv, by omega, segPerm_refl left right xs⟩


theorem partInv_init (xs : List Object) (left right : Int) (hlr : left ≤ right) :
    PartInv left right (pr xs (Int.tdiv (left + right) 2)) xs left right := by
  by_cases h0 : 0 ≤ left + right
  · have hmid : Int.tdiv (left + right) 2 = (left + right) / 2 :=
      Int.tdiv_eq_ediv h0 (by decide)
    refine ⟨le_refl _, le_refl _, by omega, by omega, ?_, ?_, ?_, ?_⟩
    · intro m h1 h2; omega
    · intro m h1 h2; omega
    · intro _
      exact ⟨Int.tdiv (left + right) 2, Int.tdiv (left + right) 2, by omega, by omega,
        le_refl _, by omega, by omega, le_refl _, Or.inr (le_refl _)⟩
    · intro h; omega
  · have hmid : Int.tdiv (left + right) 2 = -((-(left + right)) / 2) := by
      have h1 : left + right = -(-(left + right)) := by omega
      conv_lhs => rw [h1]
      rw [Int.neg_tdiv, Int.tdiv_eq_ediv (by omega) (by decide)]
    refine ⟨le_refl _, le_refl _, by omega, by omega, ?_, ?_, ?_, ?_⟩
    · intro m h1 h2; omega
    · intro m h1 h2; omega
    · intro _
      exact ⟨Int.tdiv (left + right) 2, Int.tdiv (left + right) 2, by omega, by omega,
        le_refl _, by omega, by omega, le_refl _, Or.inr (le_refl _)⟩
    · intro h; omega

theorem mid_bounds (left right : Int) (h0 : 0 ≤ left) (hlr : left ≤ right) :
    left ≤ Int.tdiv (left + right) 2 ∧ Int.tdiv (left + right) 2 ≤ right := by
  have hmid : Int.tdiv (left + right) 2 = (left + right) / 2 :=
    Int.tdiv_eq_ediv (by omega) (by decide)
  omega

theorem sortedSeg_of_small (xs : List Object) (left right : Int) (h : right ≤ left) :
    SortedSeg xs left right := by
  intro a b h1 h2 h3
  have : a = b := by omega
  rw [this]

theorem qsort_rec_spec (fuel : Nat) :
    ∀ (xs : List Object) (left right : Int), 0 ≤ left → left ≤ right →
      right < xs.length → right - left + 2 ≤ (fuel : Int) →
      ∃ ys, qsort_rec fuel xs left right = some ys ∧ SegPerm left right xs ys ∧
        SortedSeg ys left right := by
  induction fuel with
  | zero => intro xs left right _ hlr _ hf; exfalso; omega
  | succ fuel ih =>
    intro xs left right h0 hlr hn hf
    push_cast at hf
    obtain ⟨hm1, hm2⟩ := mid_bounds left right h0 hlr
    unfold qsort_rec
    rw [prob_at_eq xs left right _ (by omega) hm1 hm2 (by omega)]
    simp only []
    obtain ⟨xs1, i, j, e1, hinv, hji, hseg1⟩ :=
      partition_loop_spec left right (pr xs (Int.tdiv (left + right) 2)) (fuel + 1) h0
        (by push_cast; omega) (fuel + 1) xs left right hn (partInv_init xs left right
          (by omega)) (by intro _; push_cast; omega) (by omega)
    rw [e1]
    simp only []
    obtain ⟨b1, b2, b3, b4, hlow, hup, _, hprog⟩ := hinv
    obtain ⟨p1, p2⟩ := hprog hji
    have hlen1 : xs1.length = xs.length := hseg1.1
    -- the left recursive call
    have hL : ∃ xs2, (if left < j then qsort_rec fuel xs1 left j else some xs1) = some xs2 ∧
        SegPerm left j xs1 xs2 ∧ SortedSeg xs2 left j := by
      by_cases hc : left < j
      · rw [if_pos hc]
        exact ih xs1 left j h0 (by omega) (by rw [hlen1]; omega) (by omega)
      · rw [if_neg hc]
        exact ⟨xs1, rfl, segPerm_refl _ _ _, sortedSeg_of_small _ _ _ (by omega)⟩
    obtain ⟨xs2, e2, hseg2, hs2⟩ := hL
    rw [e2]
    simp only []
    have hlen2 : xs2.length = xs1.length := hseg2.1
    -- the right recursive call
    have hR : ∃ xs3, (if i < right then qsort_rec fuel xs2 i right else some xs2) = some xs3 ∧
        SegPerm i right xs2 xs3 ∧ SortedSeg xs3 i right := by
      by_cases hc : i < right
      · rw [if_pos hc]
        exact ih xs2 i right (by omega) (by omega) (by rw [hlen2, hlen1]; omega) (by omega)
      · rw [if_neg hc]
        exact ⟨xs2, rfl, segPerm_refl _ _ _, sortedSeg_of_small _ _ _ (by omega)⟩
    obtain ⟨xs3, e3, hseg3, hs3⟩ := hR
    refine ⟨xs3, e3, ?_, ?_⟩
    · exact segPerm_trans left right xs xs1 xs3 hseg1
        (segPerm_trans left right xs1 xs2 xs3
          (segPerm_widen left j left right xs1 xs2 hseg2 (le_refl _) (by omega) h0)
          (segPerm_widen i right left right xs2 xs3 hseg3 (by omega) (le_refl _) h0))
    · obtain ⟨_, _, f2, c2⟩ := hseg2
      obtain ⟨_, _, f3, c3⟩ := hseg3
      have hge : ∀ m : Int, left ≤ m → m < i →
          pr xs (Int.tdiv (left + right) 2) ≤ pr xs3 m := by
        intro m hm1 hm2
        have e3 : oa xs3 m = oa xs2 m := f3 m (by omega) (Or.inl hm2)
        by_cases hmj : m ≤ j
        · obtain ⟨m1, c21, c22, c23⟩ := c2 m hm1 hmj
          show _ ≤ (oa xs3 m).prob
          rw [e3, c23]
          exact hlow m1 c21 (by omega)
        · have e2 : oa xs2 m = oa xs1 m := f2 m (by omega) (Or.inr (by omega))
          show _ ≤ (oa xs3 m).prob
          rw [e3, e2]
          exact hlow m hm1 hm2
      have hle : ∀ m : Int, j < m → m ≤ right →
          pr xs3 m ≤ pr xs (Int.tdiv (left + right) 2) := by
        intro m hm1 hm2
        by_cases hmi : i ≤ m
        · obtain ⟨m1, c31, c32, c33⟩ := c3 m hmi hm2
          have e2 : oa xs2 m1 = oa xs1 m1 := f2 m1 (by omega) (Or.inr (by omega))
          show (oa xs3 m).prob ≤ _
          rw [c33, e2]
          exact hup m1 (by omega) c32
        · have e3 : oa xs3 m = oa xs2 m := f3 m (by omega) (Or.inl (by omega))
          have e2 : oa xs2 m = oa xs1 m := f2 m (by omega) (Or.inr hm1)
          show (oa xs3 m).prob ≤ _
          rw [e3, e2]
          exact hup m hm1 hm2
      intro a b ha hab hb
      by_cases hbj : b ≤ j
      · have ea : oa xs3 a = oa xs2 a := f3 a (by omega) (Or.inl (by omega))
        have eb : oa xs3 b = oa xs2 b := f3 b (by omega) (Or.inl (by omega))
        show (oa xs3 b).prob ≤ (oa xs3 a).prob
        rw [ea, eb]
        exact hs2 a b ha hab hbj
      · by_cases hai : i ≤ a
        · exact hs3 a b hai hab hb
        · exact le_trans (hle b (by omega) hb) (hge a ha (by omega))

/-- **C3.** For every list of detections `qsort_descent_inplace` terminates
with every read and swap of each recursive call inside that call's
`[left, right]` window (the run yields a result), and the result is a
permutation of the input in non-increasing order of `prob`; on the empty list
it returns the list untouched. -/
theorem qsort_descent_inplace_sorts (objects : List Object) :
    ∃ ys, qsort_descent_inplace objects = some ys ∧ ys.Perm objects ∧
      ys.Pairwise (fun a b => a.prob ≥ b.prob) ∧
      (objects = [] → ys = []) := by
  unfold qsort_descent_inplace
  by_cases he : objects.isEmpty = true
  · rw [if_pos he]
    have : objects = [] := List.isEmpty_iff.1 he
    subst this
    exact ⟨[], rfl, List.Perm.refl _, List.Pairwise.nil, fun _ => rfl⟩
  · rw [if_neg he]
    have hne : objects ≠ [] := fun h => he (List.isEmpty_iff.2 h)
    have hpos : 0 < objects.length := List.length_pos.2 hne
    obtain ⟨ys, e, ⟨hlen, hperm, _, _⟩, hs⟩ :=
      qsort_rec_spec (objects.length + 1) objects 0 ((objects.length : Int) - 1)
        (le_refl _) (by omega) (by omega) (by push_cast; omega)
    refine ⟨ys, e, hperm, ?_, fun h => absurd h hne⟩
    rw [List.pairwise_iff_getElem]
    intro a b ha hb hab
    have h := hs (a : Int) (b : Int) (by omega) (by omega) (by omega)
    simpa [pr, oa, objAt, List.getD, List.getElem?_eq_getElem ha,
      List.getElem?_eq_getElem hb] using h



/-! ## Concrete runs -/

/-- **C6 (amended).** For the tensor with `numProposals = 2` and 84 feature
rows (80 classes) whose proposal 0 is the box `(0, 0, 10, 10)` with class 0
score 0.9 and proposal 1 the box `(1, 1, 10, 10)` with class 0 score 0.8,
decoding with threshold 0.5 yields both proposals, their IoU is `81/119`
rounded to single precision, above 0.45, and decode, confidence sort and
class-aware NMS keep exactly one detection, namely proposal 0. -/
theorem detect_kept_scenario :
    generate_proposals_yolo26 scenarioPred84 0.5 = [boxA, boxB] ∧
    IoU boxB boxA = F32.ofRat (81 / 119) ∧ F32.lt 0.45 (IoU boxB boxA) ∧
    detect_kept scenarioPred84 0.5 0.45 = some [boxA] := by
  decide!

/-- **C6 (as stated) fails.** The scenario tensor with `numClasses = 2` has six
feature rows; the decoder rejects every tensor whose row count is not 84, so
decoding yields no proposal and the pipeline keeps no detection. -/
theorem detect_kept_scenario_six_rows :
    scenarioPred6.dims = 2 ∧ scenarioPred6.w = 2 ∧ scenarioPred6.h = 4 + 2 ∧
    generate_proposals_yolo26 scenarioPred6 0.5 = [] ∧
    detect_kept scenarioPred6 0.5 0.45 = some [] := by
  decide!

/-- At the boundary the filter follows single precision: the `9 x 1` box lies
inside the `20 x 1` box and the exact ratio `9/20` is above the value of the
threshold `0.45f`, but the quotient `9.f / 20.f` rounds to `0.45f` itself, which
is not above the threshold, and both boxes are kept. -/
theorem nms_boundary_example :
    F32.lit 0.45 < 9 / 20 ∧ (0.45 : F32) = F32.fin (F32.lit 0.45) ∧
    IoU stripB stripA = 0.45 ∧ ¬ F32.lt 0.45 (IoU stripB stripA) ∧
    nms_sorted_bboxes [stripA, stripB] 0.45 false = [0, 1] := by
  decide!

/-- The closing sort of `Yolo::detect` orders the detections by area: of a
`10 x 10` box with confidence `0.9f` and a `50 x 50` box with confidence `0.8f`
the mapping step yields the smaller one first and the call returns the larger
one first. -/
theorem detect_post_example :
    letterbox 640 640 640 = some lbSquare ∧
    detect_mapped twoBoxPred 640 640 lbSquare 0.5 0.45 =
      some [⟨⟨F32.fin 95, F32.fin 95, F32.fin 10, F32.fin 10⟩, 0, F32.lit 0.9⟩,
        ⟨⟨F32.fin 275, F32.fin 275, F32.fin 50, F32.fin 50⟩, 0, F32.lit 0.8⟩] ∧
    detect_post twoBoxPred 640 640 lbSquare 0.5 0.45 =
      some [⟨⟨F32.fin 275, F32.fin 275, F32.fin 50, F32.fin 50⟩, 0, F32.lit 0.8⟩,
        ⟨⟨F32.fin 95, F32.fin 95, F32.fin 10, F32.fin 10⟩, 0, F32.lit 0.9⟩] := by
  decide!

/-- **C4 (as stated) fails**, in three ways, on a `640 x 640` image with
target size 640 unless said otherwise. A tensor whose width row is `-10`
gives a kept box of width `-10`, which the mapping returns with `x = 25` and
`width = -10`. The kept box with centre `350.1f` and width `700` is mapped to
`x = 3277/32768` and `width = 5233869/8192`, whose exact sum exceeds
`img_w - 1 = 639`. On a `16777220 x 1` image the limit `(float)(img_w - 1)` is
`16777220`, and a box reaching the right border gets a width above
`img_w - 1`. -/
theorem map_box_negative_width :
    detect_kept negWidthPred 0.5 0.45 =
      some [⟨⟨F32.fin 25, F32.fin 15, F32.fin (-10), F32.fin 10⟩, 0, F32.lit 0.9⟩] ∧
    map_box 640 640 640 ⟨F32.fin 25, F32.fin 15, F32.fin (-10), F32.fin 10⟩ =
      some ⟨F32.fin 25, F32.fin 15, F32.fin (-10), F32.fin 10⟩ ∧
    ¬ F32.le (F32.fin 0) (F32.fin (-10)) ∧
    detect_kept wideBoxPred 0.5 0.45 =
      some [⟨⟨F32.fin (3277 / 32768), F32.fin 270, F32.fin 700, F32.fin 100⟩, 0, F32.lit 0.9⟩] ∧
    map_box 640 640 640 ⟨F32.fin (3277 / 32768), F32.fin 270, F32.fin 700, F32.fin 100⟩ =
      some ⟨F32.fin (3277 / 32768), F32.fin 270, F32.fin (5233869 / 8192), F32.fin 100⟩ ∧
    ¬ ((3277 / 32768 : ℚ) + 5233869 / 8192 ≤ 640 - 1) ∧
    map_box 16777220 1 640 ⟨F32.fin 0, F32.fin 0, F32.fin 640, F32.fin 640⟩ =
      some ⟨F32.fin 0, F32.fin 0, F32.fin 16777220, F32.fin 0⟩ ∧
    ¬ ((0 : ℚ) + 16777220 ≤ 16777220 - 1) := by
  decide!

/-- **C10 (as stated) fails.** For a `1 x 1` image and target size `16777219`
the conversion `(float)dst_size` gives `16777220`, so `new_w = 16777220`
exceeds the target size, the padding is `-1` and the right border is `-1`.
For a `4179 x 4179` image and target size `4304735`, a little above `2^22`, the
rounded product `img_w * scale` is `4304735.5` and `new_w = 4304736` exceeds
the target size as well. -/
theorem letterbox_exceeds_target :
    letterbox 1 1 16777219 =
      some ⟨F32.fin 16777220, 16777220, 16777220, -1, -1, 0, 0, -1, -1⟩ ∧
    ¬ ((16777220 : Int) ≤ 16777219) ∧
    (letterbox 4179 4179 4304735).map (fun lb => (lb.new_w, lb.wpad, lb.pad_left, lb.pad_right)) =
      some (4304736, -1, 0, -1) ∧
    F32.mul (F32.ofInt 4179) (letterbox_scale 4179 4179 4304735) = F32.fin (8609471 / 2) := by
  decide!

/-- Witness of C1 (amended) on the 84-row scenario tensor with threshold
0.5. -/
theorem generate_proposals_yolo26_spec_witness :
    scenarioPred84.dims = 2 ∧ scenarioPred84.h = 84 ∧ (0 : ℚ) < 0.5 ∧
    DecodeSpec scenarioPred84 0.5 (generate_proposals_yolo26 scenarioPred84 0.5) :=
  ⟨rfl, rfl, by decide!,
    generate_proposals_yolo26_spec scenarioPred84 0.5 rfl rfl (by decide!)⟩

/-- Witness of C5 (amended): the detection of proposal 0 of the 84-row
scenario tensor. -/
theorem generate_proposals_yolo26_label_range_witness :
    (0 : ℚ) < 0.5 ∧ boxA ∈ generate_proposals_yolo26 scenarioPred84 0.5 ∧
    0 ≤ boxA.label ∧ boxA.label < scenarioPred84.h - 4 :=
  ⟨by decide!, by decide!,
    generate_proposals_yolo26_label_range scenarioPred84 0.5 (by decide!) boxA
      (by decide!)⟩

/-- Witness of C9: two overlapping boxes with labels 0 and 1 and threshold
0.45. -/
theorem nms_sorted_bboxes_agnostic_witness :
    boxA.label ≠ boxC.label ∧ F32.lt 0.45 (IoU boxC boxA) ∧
    nms_sorted_bboxes [boxA, boxC] 0.45 false = [0, 1] ∧
    nms_sorted_bboxes [boxA, boxC] 0.45 true = [0] :=
  ⟨by decide, by decide!,
    (nms_sorted_bboxes_agnostic boxA boxC 0.45 (by decide) (by decide!)).1,
    (nms_sorted_bboxes_agnostic boxA boxC 0.45 (by decide) (by decide!)).2.1⟩

/-- Witness of C10 (amended): a 1280 x 720 image and target size 640. -/
theorem letterbox_padding_witness :
    (1 : Int) ≤ 1280 ∧ (1280 : Int) < 2 ^ 31 ∧ (1 : Int) ≤ 720 ∧ (720 : Int) < 2 ^ 31 ∧
    (1 : Int) ≤ 640 ∧ (640 : Int) < 2 ^ 22 ∧
    ∃ lb : Letterbox, letterbox 1280 720 640 = some lb ∧
      0 ≤ lb.new_w ∧ lb.new_w ≤ 640 ∧ 0 ≤ lb.new_h ∧ lb.new_h ≤ 640 ∧
      lb.wpad = 640 - lb.new_w ∧ lb.hpad = 640 - lb.new_h ∧
      0 ≤ lb.wpad ∧ 0 ≤ lb.hpad ∧
      lb.pad_left = ⌊(lb.wpad : ℚ) / 2⌋ ∧ lb.pad_top = ⌊(lb.hpad : ℚ) / 2⌋ ∧
      lb.pad_right = lb.wpad - lb.pad_left ∧ lb.pad_bottom = lb.hpad - lb.pad_top ∧
      (lb.pad_right = lb.pad_left ∨ lb.pad_right = lb.pad_left + 1) ∧
      (lb.pad_bottom = lb.pad_top ∨ lb.pad_bottom = lb.pad_top + 1) :=
  ⟨by decide, by decide, by decide, by decide, by decide, by decide,
    letterbox_padding 1280 720 640 (by decide) (by decide) (by decide) (by decide)
      (by decide) (by decide)⟩

/-- Witness of C4 (amended): a 50 x 60 box on a 1280 x 720 image and target
size 640. -/
theorem map_rect_clamped_witness :
    letterbox 1280 720 640 = some lbWide ∧
    rectSmall.x.IsFiniteValue ∧ rectSmall.y.IsFiniteValue ∧
    rectSmall.width.IsFiniteValue ∧ rectSmall.height.IsFiniteValue ∧
    F32.le (F32.fin 0) rectSmall.width ∧ F32.le (F32.fin 0) rectSmall.height ∧
    F32.le (F32.fin 0)
      (map_rect 1280 720 lbWide.scale lbWide.pad_left lbWide.pad_top rectSmall).x ∧
    F32.le (map_rect 1280 720 lbWide.scale lbWide.pad_left lbWide.pad_top rectSmall).x
      (mapped_right 1280 lbWide.scale lbWide.pad_left rectSmall) ∧
    F32.le (mapped_right 1280 lbWide.scale lbWide.pad_left rectSmall)
      (F32.fin (((1280 : Int) : ℚ) - 1)) :=
  ⟨by decide!, by decide!, by decide!, by decide!, by decide!, by decide!, by decide!,
    (map_rect_clamped 1280 720 640 lbWide rectSmall (by decide) (by decide) (by decide)
      (by decide) (by decide) (by decide) (by decide!) (by decide!) (by decide!)
      (by decide!) (by decide!) (by decide!) (by decide!)).1,
    (map_rect_clamped 1280 720 640 lbWide rectSmall (by decide) (by decide) (by decide)
      (by decide) (by decide) (by decide) (by decide!) (by decide!) (by decide!)
      (by decide!) (by decide!) (by decide!) (by decide!)).2.1,
    (map_rect_clamped 1280 720 640 lbWide rectSmall (by decide) (by decide) (by decide)
      (by decide) (by decide) (by decide) (by decide!) (by decide!) (by decide!)
      (by decide!) (by decide!) (by decide!) (by decide!)).2.2.1⟩

/-! ## Entry of `Yolo::detect` -/

theorem pick_pixel_type_neg_iff (c : PixelConstants) (hc : c.Valid) (img : CvMat) :
    pick_pixel_type_for_ncnn c img < 0 ↔ img.type = c.CV_8UC1 := by
  obtain ⟨h13, h14, hb, hr⟩ := hc
  unfold pick_pixel_type_for_ncnn
  simp only []
  by_cases h3 : img.type = c.CV_8UC3
  · rw [if_pos h3]
    constructor
    · intro h; omega
    · intro h; exact absurd (h.symm.trans h3) h13
  · rw [if_neg h3]
    by_cases h4 : img.type = c.CV_8UC4
    · rw [if_pos h4]
      constructor
      · intro h; omega
      · intro h; exact absurd (h.symm.trans h4) h14
    · rw [if_neg h4]
      by_cases h1 : img.type = c.CV_8UC1
      · rw [if_pos h1]
        exact ⟨fun _ => h1, fun _ => by decide⟩
      · rw [if_neg h1]
        constructor
        · intro h; omega
        · intro h; exact absurd h h1

theorem detect_of_none (c : PixelConstants)
    (infer : Int → Int → Int → Int → Int → Letterbox → Mat) (target_size : Int)
    (input : CvMat) (prob_threshold : ℚ) (nms_threshold : F32)
    (h : letterbox input.cols input.rows target_size = none) :
    detect c infer target_size input prob_threshold nms_threshold = DetectRun.undefined := by
  unfold detect
  simp only []
  rw [h]

theorem detect_of_some (c : PixelConstants)
    (infer : Int → Int → Int → Int → Int → Letterbox → Mat) (target_size : Int)
    (input : CvMat) (prob_threshold : ℚ) (nms_threshold : F32) (lb : Letterbox)
    (h : letterbox input.cols input.rows target_size = some lb) :
    detect c infer target_size input prob_threshold nms_threshold =
      if pick_pixel_type_for_ncnn c input < 0 then DetectRun.rejected (-1) []
      else DetectRun.ran (pick_pixel_type_for_ncnn c input) input.cols input.rows
        lb.new_w lb.new_h 0
        (detect_post
          (infer (pick_pixel_type_for_ncnn c input) input.cols input.rows
            lb.new_w lb.new_h lb)
          input.cols input.rows lb prob_threshold nms_threshold) := by
  unfold detect
  simp only []
  rw [h]

/-- **C11 (amended).** For every input image whose width or height is
non-positive, `Yolo::detect` does not reject the call on account of the size.
When the conversions `(int)std::round(...)` of the letterbox computation are
defined, the call is rejected (status `-1`, empty detection list, before
`from_pixels_resize` and before the network is run) exactly when the pixel
type is the unsupported single-channel type `CV_8UC1`; with any other pixel
type the non-positive width or height is handed to `from_pixels_resize`, the
network is run and status `0` is returned. When such a conversion is
undefined, so is the call. -/
theorem detect_nonpositive_size (c : PixelConstants) (hc : c.Valid)
    (infer : Int → Int → Int → Int → Int → Letterbox → Mat) (target_size : Int)
    (input : CvMat) (prob_threshold : ℚ) (nms_threshold : F32)
    (hsize : input.cols ≤ 0 ∨ input.rows ≤ 0) :
    (letterbox input.cols input.rows target_size = none →
      detect c infer target_size input prob_threshold nms_threshold =
        DetectRun.undefined) ∧
    (∀ lb : Letterbox, letterbox input.cols input.rows target_size = some lb →
      (detect c infer target_size input prob_threshold nms_threshold =
          DetectRun.rejected (-1) [] ↔ input.type = c.CV_8UC1) ∧
      (input.type ≠ c.CV_8UC1 →
        ∃ img_w img_h : Int, (img_w ≤ 0 ∨ img_h ≤ 0) ∧
          img_w = input.cols ∧ img_h = input.rows ∧
          detect c infer target_size input prob_threshold nms_threshold =
            DetectRun.ran (pick_pixel_type_for_ncnn c input) img_w img_h
              lb.new_w lb.new_h 0
              (detect_post
                (infer (pick_pixel_type_for_ncnn c input) img_w img_h
                  lb.new_w lb.new_h lb)
                img_w img_h lb prob_threshold nms_threshold))) := by
  have key := pick_pixel_type_neg_iff c hc input
  constructor
  · intro hnone
    exact detect_of_none c infer target_size input prob_threshold nms_threshold hnone
  · intro lb hlb
    have hd := detect_of_some c infer target_size input prob_threshold nms_threshold lb hlb
    constructor
    · constructor
      · intro h
        by_contra hne
        have hnn : ¬ pick_pixel_type_for_ncnn c input < 0 := fun hlt => hne (key.1 hlt)
        rw [hd, if_neg hnn] at h
        exact DetectRun.noConfusion h
      · intro h
        rw [hd, if_pos (key.2 h)]
    · intro hne
      have hnn : ¬ pick_pixel_type_for_ncnn c input < 0 := fun hlt => hne (key.1 hlt)
      refine ⟨input.cols, input.rows, hsize, rfl, rfl, ?_⟩
      rw [hd, if_neg hnn]

/-- Witness of C11 (amended): a `0 x 480` single-channel input with the
library constants and target size 640 is rejected for its pixel type. -/
theorem detect_nonpositive_size_witness :
    libConstants.Valid ∧ ((⟨0, 480, 0⟩ : CvMat).cols ≤ 0 ∨ (⟨0, 480, 0⟩ : CvMat).rows ≤ 0) ∧
    letterbox 0 480 640 = some lbZeroWidth ∧
    detect libConstants (fun _ _ _ _ _ _ => zeroPred) 640 ⟨0, 480, 0⟩ 0.5 0.45 =
      DetectRun.rejected (-1) [] :=
  ⟨by decide, Or.inl (by decide), by decide!,
    (((detect_nonpositive_size libConstants (by decide) (fun _ _ _ _ _ _ => zeroPred) 640
      ⟨0, 480, 0⟩ 0.5 0.45 (Or.inl (by decide))).2 lbZeroWidth (by decide!)).1).2 rfl⟩

/-- **C11 (as stated) fails.** A three-channel (`CV_8UC3`) input of width 0
and height 480 has a non-positive width, yet `Yolo::detect` does not reject
it: with target size 640 the scale is `min(+inf, 640/480)`, the call reaches
`from_pixels_resize` with `img_w = 0`, `img_h = 480`, `new_w = 0`,
`new_h = 640`, runs the network and returns status `0`. For a `0 x 0` input
the scale is `+inf`, the product `img_w * scale` is NaN and the conversion
`(int)std::round(NaN)` is undefined. -/
theorem detect_accepts_zero_width :
    (⟨0, 480, 16⟩ : CvMat).cols ≤ 0 ∧
    F32.div (F32.ofInt 640) (F32.ofInt 0) = F32.pinf ∧
    detect libConstants (fun _ _ _ _ _ _ => zeroPred) 640 ⟨0, 480, 16⟩ 0.5 0.45 ≠
      DetectRun.rejected (-1) [] ∧
    detect libConstants (fun _ _ _ _ _ _ => zeroPred) 640 ⟨0, 480, 16⟩ 0.5 0.45 =
      DetectRun.ran 65538 0 480 0 640 0 (some []) ∧
    letterbox_scale 0 0 640 = F32.pinf ∧
    F32.mul (F32.ofInt 0) (letterbox_scale 0 0 640) = F32.nan ∧ letterbox 0 0 640 = none ∧
    detect libConstants (fun _ _ _ _ _ _ => zeroPred) 640 ⟨0, 0, 16⟩ 0.5 0.45 =
      DetectRun.undefined := by
  decide!


end SnapShop
